import Mathlib

/-!
Verification of the Pith interpreter (`pith_runtime.c`, `pith_types.h`)
against its natural-language specification.

The development shallowly embeds the C data structures and functions:

* C strings (`char *`) become `List Char` (`CStr`);
* C `double` numbers are modelled on their integer values (`Int`) — the
  claims under study depend on exact equality, the zero test, and the
  `%g` decimal rendering of small integral values only;
* the tagged `PithValue` union becomes an inductive type.  Variants that
  the C runtime copies by reference (`VAL_VIEW`, `VAL_DICT`, `VAL_SIGNAL`)
  are modelled by their content (dictionaries inline, signals as indices
  into the runtime's signal registry, views as opaque handles);
* `is_cached`/`cached` slot pairs become `Option PithValue`;
* fallible C functions returning `bool` and mutating `PithRuntime *`
  become functions `PithRuntime → PithRuntime × Bool`.

Each embedded definition names the C function it translates.
-/

/-- C strings (`char *`) modelled as character lists. -/
abbrev CStr := List Char

/-- Shorthand used by concrete witnesses: a Lean string literal as a `CStr`. -/
def cstr (s : String) : CStr := s.toList

/-! ## Gap buffer (`pith_gapbuf_*`)

The C gap buffer is a byte region of size `capacity` whose interval
`[gap_start, gap_end)` is the (content-free) gap.  The bytes inside the
gap are uninitialized in C and never read; the embedding fills them with
NUL characters. -/

/-- `GAP_BUFFER_INITIAL_SIZE` from `pith_runtime.c`. -/
def GAP_BUFFER_INITIAL_SIZE : Nat := 64

/-- `GAP_BUFFER_MIN_GAP` from `pith_runtime.c`. -/
def GAP_BUFFER_MIN_GAP : Nat := 32

/-- `struct PithGapBuffer` from `pith_types.h`. -/
structure PithGapBuffer where
  buffer : CStr
  capacity : Nat
  gap_start : Nat
  gap_end : Nat
deriving DecidableEq, Repr

/-- `memmove(l + dst, l + src, n)` on an immutable list: the `n` bytes at
`src` are copied over the `n` bytes at `dst`, everything else kept.  (Exact
for in-range arguments, which every call site below maintains.) -/
def cmemmove (l : CStr) (dst src n : Nat) : CStr :=
  l.take dst ++ (l.drop src).take n ++ l.drop (dst + n)

/-- `pith_gapbuf_new`. -/
def pith_gapbuf_new : PithGapBuffer :=
  { capacity := GAP_BUFFER_INITIAL_SIZE
    buffer := List.replicate GAP_BUFFER_INITIAL_SIZE (Char.ofNat 0)
    gap_start := 0
    gap_end := GAP_BUFFER_INITIAL_SIZE }

/-- `pith_gapbuf_from_string`: content placed after a `GAP_BUFFER_MIN_GAP`
sized gap, cursor at position 0. -/
def pith_gapbuf_from_string (s : CStr) : PithGapBuffer :=
  { capacity := s.length + GAP_BUFFER_MIN_GAP
    buffer := List.replicate GAP_BUFFER_MIN_GAP (Char.ofNat 0) ++ s
    gap_start := 0
    gap_end := GAP_BUFFER_MIN_GAP }

/-- `pith_gapbuf_copy` (field-for-field duplicate of the buffer). -/
def pith_gapbuf_copy (gb : PithGapBuffer) : PithGapBuffer := gb

/-- `pith_gapbuf_length`: content length (capacity minus gap size). -/
def pith_gapbuf_length (gb : PithGapBuffer) : Nat :=
  gb.capacity - (gb.gap_end - gb.gap_start)

/-- `pith_gapbuf_gap_size`. -/
def pith_gapbuf_gap_size (gb : PithGapBuffer) : Nat :=
  gb.gap_end - gb.gap_start

/-- Body of `pith_gapbuf_move_gap` once the position has been clamped to
the content length: relocate the gap so that the cursor sits at content
offset `pos`, shifting the bytes between the old and new cursor across
the gap. -/
def pith_gapbuf_move_gap_at (gb : PithGapBuffer) (pos : Nat) : PithGapBuffer :=
  if pos = gb.gap_start then gb
  else if pos < gb.gap_start then
    { gb with buffer := cmemmove gb.buffer (gb.gap_end - (gb.gap_start - pos)) pos (gb.gap_start - pos)
              gap_start := pos
              gap_end := gb.gap_end - (gb.gap_start - pos) }
  else
    { gb with buffer := cmemmove gb.buffer gb.gap_start gb.gap_end (pos - gb.gap_start)
              gap_start := pos
              gap_end := gb.gap_end + (pos - gb.gap_start) }

/-- `pith_gapbuf_move_gap` (the `if (pos > len) pos = len;` clamp followed
by the relocation above). -/
def pith_gapbuf_move_gap (gb : PithGapBuffer) (pos0 : Nat) : PithGapBuffer :=
  pith_gapbuf_move_gap_at gb
    (if pos0 > pith_gapbuf_length gb then pith_gapbuf_length gb else pos0)

/-- `pith_gapbuf_goto` (absolute cursor motion, delegates to `move_gap`). -/
def pith_gapbuf_goto (gb : PithGapBuffer) (pos : Nat) : PithGapBuffer :=
  pith_gapbuf_move_gap gb pos

/-- `pith_gapbuf_to_string`: pre-gap content followed by post-gap content. -/
def pith_gapbuf_to_string (gb : PithGapBuffer) : CStr :=
  gb.buffer.take gb.gap_start ++ gb.buffer.drop gb.gap_end

/-- The gap-buffer representation invariant maintained by every operation:
`gap_start ≤ gap_end ≤ capacity` and the byte region has exactly
`capacity` bytes. -/
def gapbuf_inv (gb : PithGapBuffer) : Prop :=
  gb.gap_start ≤ gb.gap_end ∧ gb.gap_end ≤ gb.capacity ∧
    gb.buffer.length = gb.capacity

/-! ## The tagged value union (`PithValue`, `pith_types.h`)

`VAL_NUMBER` (a C `double`) is modelled on integer values.  The variants
the C runtime copies by reference are modelled as follows: `VAL_VIEW` as
an opaque handle, `VAL_SIGNAL` as an index into the runtime's signal
registry, and `VAL_DICT` by the dictionary's content (the dictionary
heap for the copy-on-write claim is modelled separately below).  The C
`is_cached`/`cached` pair of a slot becomes an `Option PithValue`. -/

mutual

inductive PithValue : Type where
  | nil : PithValue
  | bool (b : Bool) : PithValue
  | num (n : Int) : PithValue
  | str (s : CStr) : PithValue
  | arr (items : List PithValue) : PithValue
  | map (entries : List (CStr × PithValue)) : PithValue
  | block (bstart bend : Nat) : PithValue
  | view (id : Nat) : PithValue
  | dict (d : PithDict) : PithValue
  | gapbuf (g : PithGapBuffer) : PithValue
  | signal (idx : Nat) : PithValue

inductive PithDict : Type where
  | mk (name : Option CStr) (parent : Option PithDict) (slots : List PithSlot) : PithDict

inductive PithSlot : Type where
  | mk (name : CStr) (body_start : Nat) (body_end : Nat) (cached : Option PithValue) : PithSlot

end

instance : Inhabited PithValue := ⟨.nil⟩

instance : Inhabited PithDict := ⟨.mk none none []⟩

instance : Inhabited PithSlot := ⟨.mk [] 0 0 none⟩

/-- Dictionary name accessor. -/
def PithDict.name : PithDict → Option CStr
  | .mk n _ _ => n

/-- Dictionary parent accessor. -/
def PithDict.parent : PithDict → Option PithDict
  | .mk _ p _ => p

/-- Dictionary slot-list accessor. -/
def PithDict.slots : PithDict → List PithSlot
  | .mk _ _ s => s

/-- Slot name accessor. -/
def PithSlot.name : PithSlot → CStr
  | .mk n _ _ _ => n

/-- Slot body-start accessor. -/
def PithSlot.body_start : PithSlot → Nat
  | .mk _ bs _ _ => bs

/-- Slot body-end accessor. -/
def PithSlot.body_end : PithSlot → Nat
  | .mk _ _ be _ => be

/-- Slot cached-value accessor (`is_cached` plus `cached`). -/
def PithSlot.cached : PithSlot → Option PithValue
  | .mk _ _ _ c => c

/-! ## Map helpers (`pith_map_*`): the legacy `VAL_MAP` entry list -/

/-- `pith_map_set`: update the first entry with a matching key, else
append a new entry. -/
def pith_map_set_entries : List (CStr × PithValue) → CStr → PithValue → List (CStr × PithValue)
  | [], k, v => [(k, v)]
  | (k0, v0) :: rest, k, v =>
      if k0 = k then (k0, v) :: rest
      else (k0, v0) :: pith_map_set_entries rest k v

/-- Folding `pith_map_set` over a list of entries (the shape of every
`PithMap`-building loop in the C code). -/
def pith_map_set_fold (acc : List (CStr × PithValue)) :
    List (CStr × PithValue) → List (CStr × PithValue)
  | [] => acc
  | (k, v) :: rest => pith_map_set_fold (pith_map_set_entries acc k v) rest

/-- A fresh `PithMap` populated by `pith_map_set` from the given entries. -/
def pith_map_from_entries (l : List (CStr × PithValue)) : List (CStr × PithValue) :=
  pith_map_set_fold [] l

/-! ## Value copying (`pith_value_copy`)

Value-semantic variants are duplicated (which on this content model
reproduces the same content); `VAL_VIEW`, `VAL_DICT` and `VAL_SIGNAL`
are returned as-is (reference aliasing).  The `VAL_MAP` case follows the
C loop `pith_map_set(copy, key, pith_value_copy(value))`, which both
copies the entries and deduplicates their keys. -/

mutual

def pith_value_copy : PithValue → PithValue
  | .nil => .nil
  | .bool b => .bool b
  | .num n => .num n
  | .str s => .str s
  | .arr items => .arr (pith_values_copy items)
  | .map entries => .map (pith_map_from_entries (pith_entries_copy entries))
  | .block bs be => .block bs be
  | .view i => .view i
  | .dict d => .dict d
  | .gapbuf g => .gapbuf (pith_gapbuf_copy g)
  | .signal i => .signal i

def pith_values_copy : List PithValue → List PithValue
  | [] => []
  | v :: rest => pith_value_copy v :: pith_values_copy rest

def pith_entries_copy : List (CStr × PithValue) → List (CStr × PithValue)
  | [] => []
  | (k, v) :: rest => (k, pith_value_copy v) :: pith_entries_copy rest

end

/-! ## Dictionary operations (`pith_dict_*`) -/

/-- The slot-list core of `pith_dict_set_value`: update the first slot
with a matching name in place (cached value replaced, body range
zeroed), else append a fresh cached slot. -/
def pith_slots_set_value : List PithSlot → CStr → PithValue → List PithSlot
  | [], k, v => [.mk k 0 0 (some v)]
  | s :: rest, k, v =>
      if s.name = k then .mk s.name 0 0 (some v) :: rest
      else s :: pith_slots_set_value rest k v

/-- `pith_dict_set_value`. -/
def pith_dict_set_value (d : PithDict) (k : CStr) (v : PithValue) : PithDict :=
  .mk d.name d.parent (pith_slots_set_value d.slots k v)

/-- `pith_dict_add_slot`: append an uncached slot with the given body range. -/
def pith_dict_add_slot (d : PithDict) (k : CStr) (bs be : Nat) : PithDict :=
  .mk d.name d.parent (d.slots ++ [.mk k bs be none])

/-- Local slot scan used by `pith_dict_lookup`. -/
def pith_slots_lookup : List PithSlot → CStr → Option PithSlot
  | [], _ => none
  | s :: rest, k => if s.name = k then some s else pith_slots_lookup rest k

/-- `pith_dict_lookup`: local slots first, else delegate to the parent
chain, else `None`. -/
def pith_dict_lookup : PithDict → CStr → Option PithSlot
  | .mk _ p slots, k =>
      match pith_slots_lookup slots k with
      | some s => some s
      | none =>
          match p with
          | some par => pith_dict_lookup par k
          | none => none

/-- The slot-list core of `pith_dict_remove_slot`: drop the first slot
with a matching name. -/
def pith_slots_remove : List PithSlot → CStr → List PithSlot
  | [], _ => []
  | s :: rest, k => if s.name = k then rest else s :: pith_slots_remove rest k

/-- `pith_dict_remove_slot`. -/
def pith_dict_remove_slot (d : PithDict) (k : CStr) : PithDict :=
  .mk d.name d.parent (pith_slots_remove d.slots k)

/-- The loop of `pith_dict_copy`: cached slots are re-added through
`pith_dict_set_value` with a deep value copy, uncached slots through
`pith_dict_add_slot` with their body range. -/
def pith_dict_copy_loop : List PithSlot → PithDict → PithDict
  | [], acc => acc
  | s :: rest, acc =>
      match s.cached with
      | some c => pith_dict_copy_loop rest (pith_dict_set_value acc s.name (pith_value_copy c))
      | none => pith_dict_copy_loop rest (pith_dict_add_slot acc s.name s.body_start s.body_end)

/-- `pith_dict_copy`: a fresh dictionary with the same name and parent,
slots rebuilt by the loop above. -/
def pith_dict_copy (src : PithDict) : PithDict :=
  pith_dict_copy_loop src.slots (.mk src.name src.parent [])

/-- `pith_value_equal`: structural for `nil`/`bool`/`number`/`string`,
constant `false` for every other variant (and for differing types). -/
def pith_value_equal : PithValue → PithValue → Bool
  | .nil, .nil => true
  | .bool a, .bool b => a == b
  | .num a, .num b => a == b
  | .str a, .str b => a == b
  | _, _ => false

/-! ## Sanitize (`pith_value_sanitize`, `pith_dict_sanitize`,
`pith_array_sanitize`)

Dictionaries are rebuilt keeping only cached slots (through
`pith_dict_set_value`, values sanitized recursively) with the parent
link dropped; arrays are sanitized pointwise; Blocks and Views become
`nil`; everything else goes through `pith_value_copy`. -/

mutual

def pith_value_sanitize : PithValue → PithValue
  | .dict d => .dict (pith_dict_sanitize d)
  | .arr items => .arr (pith_array_sanitize items)
  | .block _ _ => .nil
  | .view _ => .nil
  | v => pith_value_copy v

def pith_dict_sanitize : PithDict → PithDict
  | .mk n _ slots => pith_dict_sanitize_loop slots (.mk n none [])

def pith_dict_sanitize_loop : List PithSlot → PithDict → PithDict
  | [], acc => acc
  | .mk nm _ _ (some c) :: rest, acc =>
      pith_dict_sanitize_loop rest (pith_dict_set_value acc nm (pith_value_sanitize c))
  | .mk _ _ _ none :: rest, acc => pith_dict_sanitize_loop rest acc

def pith_array_sanitize : List PithValue → List PithValue
  | [] => []
  | v :: rest => pith_value_sanitize v :: pith_array_sanitize rest

end

/-! ## Entry-list lemmas

`pith_map_set`-style loops (used by `pith_value_copy` on maps, by
`pith_dict_copy`/`pith_dict_sanitize` through `pith_dict_set_value`, and
by the JSON object parser) deduplicate keys.  These lemmas characterise
the fold. -/

/-- Keys of an entry list. -/
def entry_keys (l : List (CStr × PithValue)) : List CStr := l.map Prod.fst

/-- Values of an entry list. -/
def entry_values (l : List (CStr × PithValue)) : List PithValue := l.map Prod.snd

/-! ## Sanitize idempotence (C9) -/

/-- Slots built by `pith_dict_set_value` from key/value pairs: cached,
with a zeroed body range. -/
def slots_of_pairs (ps : List (CStr × PithValue)) : List PithSlot :=
  ps.map (fun p => .mk p.1 0 0 (some p.2))

/-- The key/value pairs a dictionary contributes to its sanitized copy:
one `(name, sanitized value)` pair per cached slot, in order. -/
def san_pairs (l : List PithSlot) : List (CStr × PithValue) :=
  l.filterMap (fun s => s.cached.map (fun c => (s.name, pith_value_sanitize c)))

/-- Folding `pith_dict_set_value` over key/value pairs. -/
def slots_set_fold (acc : List PithSlot) : List (CStr × PithValue) → List PithSlot
  | [] => acc
  | (k, v) :: rest => slots_set_fold (pith_slots_set_value acc k v) rest

/-! ## The dictionary heap and the persistent-map builtins (C1)

The C persistent-map builtins operate on `PithDict *` pointers.  To state
the copy-on-write law the embedding models the allocated dictionaries as
a store (address = index); `pith_dict_copy` is the only allocation the
three update builtins perform, and `pith_dict_set_value` /
`pith_dict_remove_slot` write through the fresh pointer only.  Popping
and type-checking of operands is modelled separately with the
stack-level builtins below. -/

abbrev DictStore := List PithDict

/-- The merge loop of `builtin_map_merge`: every cached slot of the
second map is written into the new dictionary with a deep value copy. -/
def pith_dict_merge_loop : List PithSlot → PithDict → PithDict
  | [], acc => acc
  | .mk nm _ _ (some c) :: rest, acc =>
      pith_dict_merge_loop rest (pith_dict_set_value acc nm (pith_value_copy c))
  | .mk _ _ _ none :: rest, acc => pith_dict_merge_loop rest acc

/-- `builtin_map_set`, dictionary-heap level: copy the source dictionary
into a fresh allocation, set the key on the copy, return the new address. -/
def builtin_map_set_st (s : DictStore) (a : Nat) (k : CStr) (v : PithValue) :
    DictStore × Nat :=
  let d := (s.get? a).getD (.mk none none [])
  (s ++ [pith_dict_set_value (pith_dict_copy d) k v], s.length)

/-- `builtin_map_remove`, dictionary-heap level. -/
def builtin_map_remove_st (s : DictStore) (a : Nat) (k : CStr) :
    DictStore × Nat :=
  let d := (s.get? a).getD (.mk none none [])
  (s ++ [pith_dict_remove_slot (pith_dict_copy d) k], s.length)

/-- `builtin_map_merge`, dictionary-heap level: copy the first map, then
write every cached slot of the second into the copy. -/
def builtin_map_merge_st (s : DictStore) (a b : Nat) : DictStore × Nat :=
  let d1 := (s.get? a).getD (.mk none none [])
  let d2 := (s.get? b).getD (.mk none none [])
  (s ++ [pith_dict_merge_loop d2.slots (pith_dict_copy d1)], s.length)

/-! ## JSON serialization (`json_serialize_*`)

Numbers: the C code prints a `double` with `snprintf("%g")`.  On the
integer values this embedding models, `%g` prints the plain decimal
digits exactly when the magnitude is below `10^6` (6 significant
digits); the round-trip theorem constrains numbers to that domain.
Larger magnitudes would print in rounded exponent notation, which is not
modelled. -/

/-- The decimal digit character for `d < 10`. -/
def json_digit_char (d : Nat) : Char := Char.ofNat ('0'.toNat + d)

/-- Decimal digits of a natural number, most significant first. -/
def json_nat_digits (n : Nat) : CStr :=
  if h : n < 10 then [json_digit_char n]
  else json_nat_digits (n / 10) ++ [json_digit_char (n % 10)]
decreasing_by exact Nat.div_lt_self (by omega) (by omega)

/-- `%g` on an integral double (see the section comment for the domain). -/
def json_format_g (n : Int) : CStr :=
  if n < 0 then '-' :: json_nat_digits n.natAbs else json_nat_digits n.natAbs

/-- The lowercase hex digit character for `d < 16` (`%04x`). -/
def json_hex_char (d : Nat) : Char :=
  if d < 10 then Char.ofNat ('0'.toNat + d) else Char.ofNat ('a'.toNat + (d - 10))

/-- Four-digit lowercase hex rendering used by the `\u%04x` escape. -/
def json_hex4 (n : Nat) : CStr :=
  [json_hex_char (n / 4096 % 16), json_hex_char (n / 256 % 16),
   json_hex_char (n / 16 % 16), json_hex_char (n % 16)]

/-- Per-character escaping of `json_serialize_string`. -/
def json_escape_char (c : Char) : CStr :=
  if c = '"' then ['\\', '"']
  else if c = '\\' then ['\\', '\\']
  else if c = Char.ofNat 8 then ['\\', 'b']
  else if c = Char.ofNat 12 then ['\\', 'f']
  else if c = '\n' then ['\\', 'n']
  else if c = Char.ofNat 13 then ['\\', 'r']
  else if c = '\t' then ['\\', 't']
  else if c.toNat < 32 then '\\' :: 'u' :: json_hex4 c.toNat
  else [c]

/-- The character loop of `json_serialize_string`. -/
def json_escape_chars : CStr → CStr
  | [] => []
  | c :: rest => json_escape_char c ++ json_escape_chars rest

/-- `json_serialize_string`: quoted, escaped. -/
def json_serialize_string (s : CStr) : CStr :=
  '"' :: json_escape_chars s ++ ['"']

mutual

/-- `json_serialize_value`.  The default branch (`VAL_MAP`, `VAL_BLOCK`,
`VAL_VIEW`, `VAL_GAPBUF`, `VAL_SIGNAL`) serializes as `null`. -/
def json_serialize_value : PithValue → CStr
  | .nil => cstr "null"
  | .bool true => cstr "true"
  | .bool false => cstr "false"
  | .num n => json_format_g n
  | .str s => json_serialize_string s
  | .arr items => '[' :: json_serialize_items items ++ [']']
  | .dict d => json_serialize_dict d
  | _ => cstr "null"

/-- The element loop of `json_serialize_array` (comma before every
element but the first). -/
def json_serialize_items : List PithValue → CStr
  | [] => []
  | [v] => json_serialize_value v
  | v :: rest => json_serialize_value v ++ ',' :: json_serialize_items rest

/-- `json_serialize_dict`: braces around the cached slots. -/
def json_serialize_dict : PithDict → CStr
  | .mk _ _ slots => '{' :: json_serialize_slots slots true ++ ['}']

/-- The slot loop of `json_serialize_dict`: uncached slots are skipped,
a comma precedes every emitted entry but the first (the `first` flag). -/
def json_serialize_slots : List PithSlot → Bool → CStr
  | [], _ => []
  | .mk nm _ _ (some c) :: rest, first =>
      (if first then [] else [',']) ++ json_serialize_string nm
        ++ ':' :: json_serialize_value c ++ json_serialize_slots rest false
  | .mk _ _ _ none :: rest, first => json_serialize_slots rest first

end

/-- `builtin_to_json`, value level: only dictionaries serialize; the
result is the serialized dictionary text. -/
def pith_to_json (v : PithValue) : Option CStr :=
  match v with
  | .dict d => some (json_serialize_dict d)
  | _ => none

/-! ## JSON parsing (`json_parse_*`)

Errors (`jp->error`) are modelled as `none`.  The C recursion over
nested values carries no fuel; at most three parser frames are opened
per `[` or `{` of the input, and every such bracket on an accepted
input is matched, so the top-level entry point passes `2*length + 2`
as fuel, making the recursion structural without changing behaviour
(on rejected inputs both the C parser and the model fail).  `strtod`
is modelled on the sign-and-digit-run inputs that `%g` produces for
the integral numbers in the modelled domain. -/

/-- C `isspace`. -/
def json_is_space (c : Char) : Bool :=
  c = ' ' || c = '\t' || c = '\n' || c = Char.ofNat 11 || c = Char.ofNat 12
    || c = Char.ofNat 13

/-- `json_skip_ws`. -/
def json_skip_ws : CStr → CStr
  | [] => []
  | c :: rest => if json_is_space c then json_skip_ws rest else c :: rest

/-- Escape decoding of `json_parse_string` (the `default: c = esc` case
keeps the escaped character). -/
def json_unescape (e : Char) : Char :=
  if e = '"' then '"'
  else if e = '\\' then '\\'
  else if e = '/' then '/'
  else if e = 'b' then Char.ofNat 8
  else if e = 'f' then Char.ofNat 12
  else if e = 'n' then '\n'
  else if e = 'r' then Char.ofNat 13
  else if e = 't' then '\t'
  else e

/-- The character loop of `json_parse_string`: collects characters until
the closing quote (or end of input — the C code accepts an unterminated
string), decoding escapes; a `\u` escape skips four characters and
yields `?`. -/
def json_parse_string_loop : CStr → CStr × CStr
  | [] => ([], [])
  | '"' :: rest => ([], rest)
  | '\\' :: [] => (['\\'], [])
  | '\\' :: e :: rest =>
      if e = 'u' then
        let p := json_parse_string_loop (rest.drop 4)
        ('?' :: p.1, p.2)
      else
        let p := json_parse_string_loop rest
        (json_unescape e :: p.1, p.2)
  | c :: rest =>
      let p := json_parse_string_loop rest
      (c :: p.1, p.2)
termination_by cs => cs.length
decreasing_by all_goals simp [List.length_drop] <;> omega

/-- `json_parse_string`: requires the opening quote. -/
def json_parse_string (cs : CStr) : Option (CStr × CStr) :=
  match cs with
  | '"' :: rest => some (json_parse_string_loop rest)
  | _ => none

/-- Digit test used by `json_parse_value` for the number branch. -/
def json_is_digit (c : Char) : Bool := '0' ≤ c && c ≤ '9'

/-- Leading digit run of the input. -/
def json_take_digits : CStr → CStr × CStr
  | [] => ([], [])
  | c :: rest =>
      if json_is_digit c then
        let p := json_take_digits rest
        (c :: p.1, p.2)
      else ([], c :: rest)

/-- Numeric value of a digit run. -/
def json_digits_to_nat (ds : CStr) : Nat :=
  ds.foldl (fun acc c => acc * 10 + (c.toNat - '0'.toNat)) 0

/-- `json_parse_number` (`strtod`, on the inputs described in the
section comment): optional minus sign followed by a digit run. -/
def json_parse_number (cs : CStr) : PithValue × CStr :=
  match cs with
  | '-' :: rest =>
      let p := json_take_digits rest
      (.num (-(json_digits_to_nat p.1 : Int)), p.2)
  | _ =>
      let p := json_take_digits cs
      (.num (json_digits_to_nat p.1 : Int), p.2)

mutual

/-- `json_parse_value`. -/
def json_parse_value (fuel : Nat) (cs0 : CStr) : Option (PithValue × CStr) :=
  match fuel with
  | 0 => none
  | fuel + 1 =>
      let cs := json_skip_ws cs0
      match cs with
      | '"' :: rest => (json_parse_string_loop rest) |> fun p => some (.str p.1, p.2)
      | '[' :: rest => json_parse_array fuel rest
      | '{' :: rest => json_parse_object fuel rest
      | c :: rest =>
          if c = '-' || json_is_digit c then some (json_parse_number (c :: rest))
          else if (c :: rest).take 4 = cstr "true" then some (.bool true, (c :: rest).drop 4)
          else if (c :: rest).take 5 = cstr "false" then some (.bool false, (c :: rest).drop 5)
          else if (c :: rest).take 4 = cstr "null" then some (.nil, (c :: rest).drop 4)
          else none
      | [] => none

/-- `json_parse_array` after the opening bracket. -/
def json_parse_array (fuel : Nat) (cs : CStr) : Option (PithValue × CStr) :=
  match fuel with
  | 0 => none
  | fuel + 1 =>
      match json_skip_ws cs with
      | ']' :: rest => some (.arr [], rest)
      | other => (json_parse_items fuel other).map (fun p => (.arr p.1, p.2))

/-- The element loop of `json_parse_array` (one or more comma-separated
values). -/
def json_parse_items (fuel : Nat) (cs : CStr) : Option (List PithValue × CStr) :=
  match fuel with
  | 0 => none
  | fuel + 1 =>
      match json_parse_value fuel (json_skip_ws cs) with
      | none => none
      | some (item, r) =>
          match json_skip_ws r with
          | ']' :: r2 => some ([item], r2)
          | ',' :: r2 => (json_parse_items fuel r2).map (fun p => (item :: p.1, p.2))
          | _ => none

/-- `json_parse_object` after the opening brace. -/
def json_parse_object (fuel : Nat) (cs : CStr) : Option (PithValue × CStr) :=
  match fuel with
  | 0 => none
  | fuel + 1 =>
      match json_skip_ws cs with
      | '}' :: rest => some (.dict (.mk none none []), rest)
      | other => json_parse_entries fuel other (.mk none none [])

/-- The member loop of `json_parse_object`: string key, colon, value;
entries land in the dictionary through `pith_dict_set_value`. -/
def json_parse_entries (fuel : Nat) (cs : CStr) (acc : PithDict) :
    Option (PithValue × CStr) :=
  match fuel with
  | 0 => none
  | fuel + 1 =>
      match json_parse_string (json_skip_ws cs) with
      | none => none
      | some (key, r1) =>
          match json_skip_ws r1 with
          | ':' :: r2 =>
              match json_parse_value fuel r2 with
              | none => none
              | some (val, r3) =>
                  let acc2 := pith_dict_set_value acc key val
                  match json_skip_ws r3 with
                  | '}' :: r4 => some (.dict acc2, r4)
                  | ',' :: r4 => json_parse_entries fuel r4 acc2
                  | _ => none
          | _ => none

end

/-- `builtin_parse_json`, value level: whitespace, a mandatory `{`, then
the object parser (fuel one past the input length, see above). -/
def pith_parse_json (s : CStr) : Option PithValue :=
  match json_skip_ws s with
  | '{' :: rest => (json_parse_object (2 * s.length + 2) rest).map Prod.fst
  | _ => none

/-- A remainder that cannot extend a digit run: empty or headed by a
non-digit. -/
def json_num_delim : CStr → Bool
  | [] => true
  | c :: _ => !(json_is_digit c)

/-! ## Round-trip lemmas: strings -/

/-- Characters whose escape the C parser decodes back exactly: everything
from space upward plus the named control escapes `\b \t \n \f \r`.
(Control characters outside this set serialize as `\uXXXX`, which
`json_parse_string` does not decode — it skips them and yields `?`.) -/
def json_clean_char (c : Char) : Bool :=
  32 ≤ c.toNat || c.toNat = 8 || c.toNat = 9 || c.toNat = 10
    || c.toNat = 12 || c.toNat = 13

/-- All characters of a string are clean. -/
def json_clean_str (s : CStr) : Bool := s.all json_clean_char

/-! ## Round trip: purity, canonical parse result, structural equality -/

/-- Slot names pairwise distinct. -/
def slot_names_nodup : List PithSlot → Bool
  | [] => true
  | s :: rest => !((rest.map PithSlot.name).contains s.name) && slot_names_nodup rest

mutual

/-- The domain on which the JSON codec round-trips (see the amended
claim): values built from `nil`, booleans, numbers (integral, magnitude
below `10^6` so that `%g` prints them exactly), strings without raw
control characters outside the named escapes, arrays, and dictionaries
all of whose slots are cached, with pairwise-distinct clean keys. -/
def json_pure_value : PithValue → Bool
  | .nil => true
  | .bool _ => true
  | .num n => n.natAbs < 1000000
  | .str s => json_clean_str s
  | .arr items => json_pure_items items
  | .dict d => json_pure_dict d
  | _ => false

def json_pure_items : List PithValue → Bool
  | [] => true
  | v :: rest => json_pure_value v && json_pure_items rest

def json_pure_dict : PithDict → Bool
  | .mk _ _ slots => json_pure_slots slots && slot_names_nodup slots

def json_pure_slots : List PithSlot → Bool
  | [] => true
  | .mk nm _ _ (some c) :: rest =>
      json_clean_str nm && json_pure_value c && json_pure_slots rest
  | .mk _ _ _ none :: _ => false

end

mutual

/-- What `parse-json` rebuilds from a serialized pure value: the same
data with dictionary names, parent links and body ranges reset (the
parser allocates anonymous dictionaries and caches every entry). -/
def json_canon : PithValue → PithValue
  | .arr items => .arr (json_canon_items items)
  | .dict (.mk _ _ slots) => .dict (.mk none none (json_canon_slots slots))
  | v => v

def json_canon_items : List PithValue → List PithValue
  | [] => []
  | v :: rest => json_canon v :: json_canon_items rest

def json_canon_slots : List PithSlot → List PithSlot
  | [] => []
  | .mk nm _ _ (some c) :: rest => .mk nm 0 0 (some (json_canon c)) :: json_canon_slots rest
  | .mk _ _ _ none :: rest => json_canon_slots rest

end

mutual

/-- Structural equality in the claim's sense: primitives by value,
arrays pointwise, dictionaries by their cached slots — same keys in the
same order, recursively equal values — ignoring dictionary names,
parent links and body ranges. -/
def pith_struct_eq : PithValue → PithValue → Bool
  | .nil, .nil => true
  | .bool a, .bool b => a == b
  | .num a, .num b => a == b
  | .str a, .str b => a == b
  | .arr a, .arr b => pith_struct_eq_items a b
  | .dict (.mk _ _ s1), .dict (.mk _ _ s2) => pith_struct_eq_slots s1 s2
  | _, _ => false

def pith_struct_eq_items : List PithValue → List PithValue → Bool
  | [], [] => true
  | a :: arest, b :: brest => pith_struct_eq a b && pith_struct_eq_items arest brest
  | _, _ => false

def pith_struct_eq_slots : List PithSlot → List PithSlot → Bool
  | [], [] => true
  | .mk n1 _ _ (some c1) :: r1, .mk n2 _ _ (some c2) :: r2 =>
      n1 == n2 && pith_struct_eq c1 c2 && pith_struct_eq_slots r1 r2
  | _, _ => false

end

/-! ## Round trip: fuel measure and parser step lemmas -/

mutual

/-- Recursion depth the parser needs on a serialized value (each
constructor of the parser consumes one fuel unit). -/
def json_fuel_value : PithValue → Nat
  | .arr items => 2 + json_fuel_items items
  | .dict (.mk _ _ slots) => 2 + json_fuel_slots slots
  | _ => 1

def json_fuel_items : List PithValue → Nat
  | [] => 1
  | v :: rest => 1 + json_fuel_value v + json_fuel_items rest

def json_fuel_slots : List PithSlot → Nat
  | [] => 1
  | .mk _ _ _ (some c) :: rest => 1 + json_fuel_value c + json_fuel_slots rest
  | .mk _ _ _ none :: rest => json_fuel_slots rest

end

/-- A dictionary that is pure data in the claim's sense (one cached
string slot, no Block or View values) whose string holds the control
character `\x01`. -/
def c2_control_dict : PithDict :=
  .mk none none [.mk (cstr "k") 0 0 (some (.str [Char.ofNat 1]))]

/-! ## Runtime, stack and error handling (`PithRuntime`, `pith_error`,
`pith_push`, `pith_pop`, `pith_stack_has`)

The runtime carries the value stack (list head = top of stack), the
token stream, the root dictionary, the current dictionary, the signal
registry (`rt->all_signals`; a `VAL_SIGNAL` value holds its index) and
the single error slot.  Builtins return the updated runtime and the C
function's boolean result. -/

/-- Tokens (`PithToken`): literals carry their parsed payload (a
`TOK_NUMBER`'s text goes through `atof`, modelled on integral values
like `%g`, see above). -/
inductive PithTok where
  | word (s : CStr)
  | num (n : Int)
  | str (s : CStr)
  | true_
  | false_
  | nil_
  | dot
  | colon
  | semicolon
  | if_
  | else_
  | end_
  | do_
  | lbracket
  | rbracket
  | eof
deriving DecidableEq, Repr

/-- One registered signal (`PithSignal`): the wrapped value and the
dirty flag; the subscriber bookkeeping feeds only the UI layer. -/
structure PithSignalState where
  value : PithValue
  dirty : Bool

/-- `PithRuntime` (the fields the modelled operations touch). -/
structure PithRuntime where
  stack : List PithValue
  tokens : List PithTok
  root : PithDict
  current_dict : Option PithDict
  signals : List PithSignalState
  has_error : Bool
  error : CStr

def PITH_STACK_MAX : Nat := 256

/-- `pith_error`: formats into `rt->error` and sets the flag. -/
def pith_error (rt : PithRuntime) (msg : CStr) : PithRuntime :=
  { rt with has_error := true, error := msg }

/-- `pith_push`. -/
def pith_push (rt : PithRuntime) (v : PithValue) : PithRuntime × Bool :=
  if PITH_STACK_MAX ≤ rt.stack.length then
    (pith_error rt (cstr "Stack overflow"), false)
  else ({ rt with stack := v :: rt.stack }, true)

/-- `pith_pop` (an empty stack sets the underflow error and yields nil). -/
def pith_pop (rt : PithRuntime) : PithRuntime × PithValue :=
  match rt.stack with
  | [] => (pith_error rt (cstr "Stack underflow"), .nil)
  | v :: rest => ({ rt with stack := rest }, v)

/-- `pith_stack_has`. -/
def pith_stack_has (rt : PithRuntime) (n : Nat) : Bool :=
  n ≤ rt.stack.length

/-- `pith_signal_set`: store the value and mark dirty (out-of-range
indices, the NULL-signal case, are a no-op). -/
def pith_signal_set (rt : PithRuntime) (idx : Nat) (v : PithValue) : PithRuntime :=
  { rt with signals := rt.signals.set idx ⟨v, true⟩ }

/-- `pith_signal_get` (NULL yields nil). -/
def pith_signal_get (rt : PithRuntime) (idx : Nat) : PithValue :=
  (rt.signals.getD idx ⟨.nil, false⟩).value

/-- `pith_runtime_has_dirty_signals`. -/
def pith_runtime_has_dirty_signals (rt : PithRuntime) : Bool :=
  rt.signals.any (fun s => s.dirty)

/-- `pith_runtime_clear_dirty`. -/
def pith_runtime_clear_dirty (rt : PithRuntime) : PithRuntime :=
  { rt with signals := rt.signals.map (fun s => ⟨s.value, false⟩) }

/-! ## Builtins (stack level) -/

/-- `builtin_dup`. -/
def builtin_dup (rt : PithRuntime) : PithRuntime × Bool :=
  if pith_stack_has rt 1 then
    match rt.stack with
    | v :: _ => pith_push rt (pith_value_copy v)
    | [] => (rt, false)
  else (rt, false)

/-- `builtin_drop`. -/
def builtin_drop (rt : PithRuntime) : PithRuntime × Bool :=
  if pith_stack_has rt 1 then ((pith_pop rt).1, true)
  else (rt, false)

/-- `builtin_swap`. -/
def builtin_swap (rt : PithRuntime) : PithRuntime × Bool :=
  if pith_stack_has rt 2 then
    let p1 := pith_pop rt
    let p2 := pith_pop p1.1
    let r3 := (pith_push p2.1 p1.2).1
    ((pith_push r3 p2.2).1, true)
  else (rt, false)

/-- `builtin_add`: numbers add, strings concatenate, anything else is
a type error. -/
def builtin_add (rt : PithRuntime) : PithRuntime × Bool :=
  if pith_stack_has rt 2 then
    let p1 := pith_pop rt
    let p2 := pith_pop p1.1
    match p2.2, p1.2 with
    | .num x, .num y => pith_push p2.1 (.num (x + y))
    | .str x, .str y => pith_push p2.1 (.str (x ++ y))
    | _, _ => (pith_error p2.1 (cstr "Cannot add values of these types"), false)
  else (rt, false)

/-- `builtin_subtract`. -/
def builtin_subtract (rt : PithRuntime) : PithRuntime × Bool :=
  if pith_stack_has rt 2 then
    let p1 := pith_pop rt
    let p2 := pith_pop p1.1
    match p2.2, p1.2 with
    | .num x, .num y => pith_push p2.1 (.num (x - y))
    | _, _ => (pith_error p2.1 (cstr "subtract requires numbers"), false)
  else (rt, false)

/-- `builtin_equal` (the `=` word). -/
def builtin_equal (rt : PithRuntime) : PithRuntime × Bool :=
  if pith_stack_has rt 2 then
    let p1 := pith_pop rt
    let p2 := pith_pop p1.1
    pith_push p2.1 (.bool (pith_value_equal p2.2 p1.2))
  else (rt, false)

/-- `builtin_map_get`: nil when the key is absent or the slot holds no
cached value; the lookup follows the parent chain. -/
def builtin_map_get (rt : PithRuntime) : PithRuntime × Bool :=
  if pith_stack_has rt 2 then
    let p1 := pith_pop rt
    let p2 := pith_pop p1.1
    match p2.2 with
    | .dict d =>
        match p1.2 with
        | .str k =>
            let result : PithValue :=
              match pith_dict_lookup d k with
              | some s =>
                  match s.cached with
                  | some c => pith_value_copy c
                  | none => .nil
              | none => .nil
            pith_push p2.1 result
        | _ => (pith_error p2.1 (cstr "get requires string key"), false)
    | _ => (pith_error p2.1 (cstr "get requires a map"), false)
  else (rt, false)

/-- `builtin_map_set`: copy-on-write update pushed as a new dictionary. -/
def builtin_map_set (rt : PithRuntime) : PithRuntime × Bool :=
  if pith_stack_has rt 3 then
    let p1 := pith_pop rt
    let p2 := pith_pop p1.1
    let p3 := pith_pop p2.1
    match p2.2 with
    | .dict d =>
        match p1.2 with
        | .str k => pith_push p3.1 (.dict (pith_dict_set_value (pith_dict_copy d) k p3.2))
        | _ => (pith_error p3.1 (cstr "set requires string key"), false)
    | _ => (pith_error p3.1 (cstr "set requires a map"), false)
  else (rt, false)

/-- `builtin_map_keys`: only the dictionary's own local slot names. -/
def builtin_map_keys (rt : PithRuntime) : PithRuntime × Bool :=
  if pith_stack_has rt 1 then
    let p1 := pith_pop rt
    match p1.2 with
    | .dict d => pith_push p1.1 (.arr (d.slots.map (fun s => .str s.name)))
    | _ => (pith_error p1.1 (cstr "keys requires a map"), false)
  else (rt, false)

/-- `builtin_map_has`: true exactly when `pith_dict_lookup` (local
slots, then the parent chain) finds the key, cached or not. -/
def builtin_map_has (rt : PithRuntime) : PithRuntime × Bool :=
  if pith_stack_has rt 2 then
    let p1 := pith_pop rt
    let p2 := pith_pop p1.1
    match p2.2 with
    | .dict d =>
        match p1.2 with
        | .str k => pith_push p2.1 (.bool (pith_dict_lookup d k).isSome)
        | _ => (pith_error p2.1 (cstr "has requires string key"), false)
    | _ => (pith_error p2.1 (cstr "has requires a map"), false)
  else (rt, false)

/-- `builtin_map_remove`. -/
def builtin_map_remove (rt : PithRuntime) : PithRuntime × Bool :=
  if pith_stack_has rt 2 then
    let p1 := pith_pop rt
    let p2 := pith_pop p1.1
    match p2.2 with
    | .dict d =>
        match p1.2 with
        | .str k => pith_push p2.1 (.dict (pith_dict_remove_slot (pith_dict_copy d) k))
        | _ => (pith_error p2.1 (cstr "remove requires string key"), false)
    | _ => (pith_error p2.1 (cstr "remove requires a map"), false)
  else (rt, false)

/-- `builtin_map_merge`. -/
def builtin_map_merge (rt : PithRuntime) : PithRuntime × Bool :=
  if pith_stack_has rt 2 then
    let p1 := pith_pop rt
    let p2 := pith_pop p1.1
    match p2.2, p1.2 with
    | .dict d1, .dict d2 =>
        pith_push p2.1 (.dict (pith_dict_merge_loop d2.slots (pith_dict_copy d1)))
    | _, _ => (pith_error p2.1 (cstr "merge requires two maps"), false)
  else (rt, false)

/-! ## Execution (`find_builtin`, `pith_find_dict`, `pith_execute_word`,
`pith_execute_slot` and its token loop)

The C execution recursion is unbounded; every function below takes a
fuel argument that the caller sets high enough to cover the recursion
of the programs under consideration (fuel exhaustion yields a bare
`false`, an outcome the C code cannot produce, so theorems always
supply sufficient fuel).  The three token scans (matching `else`/`end`
of an `if`, the `end` of a `do`, the `]` of an array) walk at most
`body_end - j` tokens, which the callers pass as their fuel, making
them total without changing behaviour. -/

/-- The builtin dispatch table (`builtins[]`/`find_builtin`), restricted
to the operations modelled in this development. -/
def pith_find_builtin (name : CStr) : Option (PithRuntime → PithRuntime × Bool) :=
  if name = cstr "dup" then some builtin_dup
  else if name = cstr "drop" then some builtin_drop
  else if name = cstr "swap" then some builtin_swap
  else if name = cstr "add" ∨ name = cstr "+" then some builtin_add
  else if name = cstr "subtract" ∨ name = cstr "-" then some builtin_subtract
  else if name = cstr "=" then some builtin_equal
  else if name = cstr "get" then some builtin_map_get
  else if name = cstr "set" then some builtin_map_set
  else if name = cstr "keys" then some builtin_map_keys
  else if name = cstr "has" then some builtin_map_has
  else if name = cstr "remove" then some builtin_map_remove
  else if name = cstr "merge" then some builtin_map_merge
  else none

/-- `pith_find_dict`: scan the root dictionary's slots for one with the
given name whose cached value is a dictionary (a name match without a
cached dictionary keeps scanning). -/
def pith_find_dict_slots : List PithSlot → CStr → Option PithDict
  | [], _ => none
  | .mk nm _ _ cached :: rest, name =>
      if nm = name then
        match cached with
        | some (.dict d) => some d
        | _ => pith_find_dict_slots rest name
      else pith_find_dict_slots rest name

def pith_find_dict (rt : PithRuntime) (name : CStr) : Option PithDict :=
  pith_find_dict_slots rt.root.slots name

/-- The truthiness test of the `TOK_IF` case: bools by value, numbers
against zero, nil false, every other value true. -/
def pith_take_branch : PithValue → Bool
  | .bool b => b
  | .num n => !(n == 0)
  | .nil => false
  | _ => true

def pith_is_dot : PithTok → Bool
  | .dot => true
  | _ => false

def pith_is_word : PithTok → Bool
  | .word _ => true
  | _ => false

/-- `tok->text` where the executed paths read it (words and strings). -/
def pith_tok_text : PithTok → CStr
  | .word s => s
  | .str s => s
  | _ => []

/-- The `TOK_IF` scan: find the matching `else` (depth 1, last one
wins, 0 = none) and `end`; without a break `end_pos` stays at the
body start (`dflt`). -/
def pith_if_scan (tokens : List PithTok) (body_end : Nat) :
    Nat → Nat → Nat → Nat → Nat → Nat × Nat
  | 0, _, _, else_pos, dflt => (else_pos, dflt)
  | fuel + 1, j, depth, else_pos, dflt =>
      if j < body_end then
        match tokens.getD j .eof with
        | .if_ => pith_if_scan tokens body_end fuel (j + 1) (depth + 1) else_pos dflt
        | .do_ => pith_if_scan tokens body_end fuel (j + 1) (depth + 1) else_pos dflt
        | .else_ =>
            if depth = 1 then pith_if_scan tokens body_end fuel (j + 1) depth j dflt
            else pith_if_scan tokens body_end fuel (j + 1) depth else_pos dflt
        | .end_ =>
            if depth = 1 then (else_pos, j)
            else pith_if_scan tokens body_end fuel (j + 1) (depth - 1) else_pos dflt
        | _ => pith_if_scan tokens body_end fuel (j + 1) depth else_pos dflt
      else (else_pos, dflt)

/-- The `TOK_DO` scan: index of the matching `end`. -/
def pith_do_scan (tokens : List PithTok) (body_end : Nat) :
    Nat → Nat → Nat → Nat
  | 0, j, _ => j - 1
  | fuel + 1, j, depth =>
      if j < body_end ∧ 0 < depth then
        match tokens.getD j .eof with
        | .do_ => pith_do_scan tokens body_end fuel (j + 1) (depth + 1)
        | .end_ => pith_do_scan tokens body_end fuel (j + 1) (depth - 1)
        | _ => pith_do_scan tokens body_end fuel (j + 1) depth
      else j - 1

/-- The `TOK_LBRACKET` scan: index of the matching `]` (or the array
start when unmatched). -/
def pith_bracket_scan (tokens : List PithTok) (body_end : Nat) :
    Nat → Nat → Nat → Nat → Nat
  | 0, _, _, dflt => dflt
  | fuel + 1, j, depth, dflt =>
      if j < body_end then
        match tokens.getD j .eof with
        | .lbracket => pith_bracket_scan tokens body_end fuel (j + 1) (depth + 1) dflt
        | .rbracket =>
            if depth = 1 then j
            else pith_bracket_scan tokens body_end fuel (j + 1) (depth - 1) dflt
        | _ => pith_bracket_scan tokens body_end fuel (j + 1) depth dflt
      else dflt

mutual

/-- `pith_execute_word`: signal-write syntax `name!` first, then the
builtin table, then the current dictionary (a cached dictionary slot
mounts its `ui` slot or is pushed as a value), then a root dictionary
name, else an unknown-word error.  The style application on a produced
view (`pith_apply_dict_styles`) touches only the opaque UI layer. -/
def pith_execute_word (fuel : Nat) (rt : PithRuntime) (name : CStr) :
    PithRuntime × Bool :=
  match fuel with
  | 0 => (rt, false)
  | fuel + 1 =>
      if 1 < name.length ∧ name.getLast? = some '!' then
        let slot_name := name.take (name.length - 1)
        let slot0 : Option PithSlot :=
          match rt.current_dict with
          | some cd => pith_dict_lookup cd slot_name
          | none => none
        let slot : Option PithSlot :=
          match slot0 with
          | none => pith_dict_lookup rt.root slot_name
          | some s => some s
        match slot with
        | some (.mk _ _ _ (some (.signal idx))) =>
            if pith_stack_has rt 1 then
              let p := pith_pop rt
              (pith_signal_set p.1 idx p.2, true)
            else (pith_error rt (cstr "Signal write requires value on stack"), false)
        | _ => (pith_error rt (cstr "Unknown signal"), false)
      else
        match pith_find_builtin name with
        | some f => f rt
        | none =>
            match (match rt.current_dict with
                   | some cd => pith_dict_lookup cd name
                   | none => none) with
            | some (.mk _ _ _ (some (.dict dict))) =>
                (match pith_dict_lookup dict (cstr "ui") with
                 | some ui_slot =>
                     let saved := rt.current_dict
                     let p := pith_execute_slot fuel
                       { rt with current_dict := some dict } ui_slot
                     ({ p.1 with current_dict := saved }, p.2)
                 | none => pith_push rt (.dict dict))
            | some slot => pith_execute_slot fuel rt slot
            | none =>
                match pith_find_dict rt name with
                | some dict =>
                    (match pith_dict_lookup dict (cstr "ui") with
                     | some ui_slot =>
                         let saved := rt.current_dict
                         let p := pith_execute_slot fuel
                           { rt with current_dict := some dict } ui_slot
                         ({ p.1 with current_dict := saved }, p.2)
                     | none => pith_push rt (.dict dict))
                | none => (pith_error rt (cstr "Unknown word"), false)

/-- `pith_execute_slot`: a cached value is pushed (signals auto-unwrap
to a copy of their current value); otherwise the token body runs. -/
def pith_execute_slot (fuel : Nat) (rt : PithRuntime) (slot : PithSlot) :
    PithRuntime × Bool :=
  match fuel with
  | 0 => (rt, false)
  | fuel + 1 =>
      match slot with
      | .mk _ _ _ (some (.signal idx)) =>
          pith_push rt (pith_value_copy (pith_signal_get rt idx))
      | .mk _ _ _ (some v) => pith_push rt (pith_value_copy v)
      | .mk _ bs be none => pith_execute_body fuel rt bs be

/-- The intermediate part traversal of a dot chain (`word.slot.…`):
cached dictionary slots step directly, anything else executes and must
leave a dictionary on the stack. -/
def pith_execute_chain (fuel : Nat) (rt : PithRuntime) (current : PithDict)
    (j chain_end : Nat) : PithRuntime × Option PithDict :=
  match fuel with
  | 0 => (rt, none)
  | fuel + 1 =>
      if j < chain_end then
        let part_name := pith_tok_text (rt.tokens.getD j .eof)
        match pith_dict_lookup current part_name with
        | none => (pith_error rt (cstr "Unknown slot in path"), none)
        | some (.mk _ _ _ (some (.dict d2))) =>
            pith_execute_chain fuel rt d2 (j + 2) chain_end
        | some pslot =>
            let saved := rt.current_dict
            let p := pith_execute_slot fuel { rt with current_dict := some current } pslot
            let rt2 := { p.1 with current_dict := saved }
            if p.2 then
              let q := pith_pop rt2
              match q.2 with
              | .dict d2 => pith_execute_chain fuel q.1 d2 (j + 2) chain_end
              | _ => (pith_error q.1 (cstr "not a dictionary/map"), none)
            else (rt2, none)
      else (rt, some current)

/-- The collected-chain length: extend the chain while `.word` pairs
follow. -/
def pith_chain_end (tokens : List PithTok) (body_end : Nat) :
    Nat → Nat → Nat
  | 0, ce => ce
  | fuel + 1, ce =>
      if ce + 2 < body_end then
        if pith_is_dot (tokens.getD (ce + 1) .eof)
            && pith_is_word (tokens.getD (ce + 2) .eof) then
          pith_chain_end tokens body_end fuel (ce + 2)
        else ce
      else ce

/-- The token loop of `pith_execute_slot` (index `i` up to `body_end`;
after every token the loop aborts when `rt->has_error` is set). -/
def pith_execute_body (fuel : Nat) (rt : PithRuntime) (i body_end : Nat) :
    PithRuntime × Bool :=
  match fuel with
  | 0 => (rt, false)
  | fuel + 1 =>
      if i < body_end then
        match rt.tokens.getD i .eof with
        | .num n =>
            let rt1 := (pith_push rt (.num n)).1
            if rt1.has_error then (rt1, false)
            else pith_execute_body fuel rt1 (i + 1) body_end
        | .str s =>
            let rt1 := (pith_push rt (.str s)).1
            if rt1.has_error then (rt1, false)
            else pith_execute_body fuel rt1 (i + 1) body_end
        | .true_ =>
            let rt1 := (pith_push rt (.bool true)).1
            if rt1.has_error then (rt1, false)
            else pith_execute_body fuel rt1 (i + 1) body_end
        | .false_ =>
            let rt1 := (pith_push rt (.bool false)).1
            if rt1.has_error then (rt1, false)
            else pith_execute_body fuel rt1 (i + 1) body_end
        | .nil_ =>
            let rt1 := (pith_push rt (.nil)).1
            if rt1.has_error then (rt1, false)
            else pith_execute_body fuel rt1 (i + 1) body_end
        | .word w =>
            if i + 2 < body_end
                ∧ pith_is_dot (rt.tokens.getD (i + 1) .eof) = true
                ∧ pith_is_word (rt.tokens.getD (i + 2) .eof) = true then
              let chain_end := pith_chain_end rt.tokens body_end body_end i
              match pith_find_dict rt w with
              | none => (pith_error rt (cstr "Unknown dictionary"), false)
              | some cur0 =>
                  match pith_execute_chain fuel rt cur0 (i + 2) chain_end with
                  | (rt1, none) => (rt1, false)
                  | (rt1, some current) =>
                      let final_name := pith_tok_text (rt1.tokens.getD chain_end .eof)
                      if 1 < final_name.length ∧ final_name.getLast? = some '!' then
                        let slot_name := final_name.take (final_name.length - 1)
                        match pith_dict_lookup current slot_name with
                        | some (.mk _ _ _ (some (.signal idx))) =>
                            if pith_stack_has rt1 1 then
                              let p := pith_pop rt1
                              let rt2 := pith_signal_set p.1 idx p.2
                              if rt2.has_error then (rt2, false)
                              else pith_execute_body fuel rt2 (chain_end + 1) body_end
                            else
                              (pith_error rt1
                                (cstr "Signal write requires value on stack"), false)
                        | _ => (pith_error rt1 (cstr "Unknown signal"), false)
                      else
                        match pith_dict_lookup current final_name with
                        | none => (pith_error rt1 (cstr "Unknown slot in path"), false)
                        | some fslot =>
                            let saved := rt1.current_dict
                            let p := pith_execute_slot fuel
                              { rt1 with current_dict := some current } fslot
                            let rt2 := { p.1 with current_dict := saved }
                            if p.2 then
                              if rt2.has_error then (rt2, false)
                              else pith_execute_body fuel rt2 (chain_end + 1) body_end
                            else (rt2, false)
            else
              match pith_execute_word fuel rt w with
              | (rt1, true) =>
                  if rt1.has_error then (rt1, false)
                  else pith_execute_body fuel rt1 (i + 1) body_end
              | (rt1, false) => (rt1, false)
        | .if_ =>
            if pith_stack_has rt 1 then
              let p := pith_pop rt
              let scan := pith_if_scan rt.tokens body_end
                (body_end - (i + 1)) (i + 1) 1 0 (i + 1)
              let else_pos := scan.1
              let end_pos := scan.2
              if pith_take_branch p.2 then
                let branch_end := if 0 < else_pos then else_pos else end_pos
                match pith_execute_body fuel p.1 (i + 1) branch_end with
                | (rt2, true) =>
                    if rt2.has_error then (rt2, false)
                    else pith_execute_body fuel rt2 (end_pos + 1) body_end
                | (rt2, false) => (rt2, false)
              else
                if 0 < else_pos then
                  match pith_execute_body fuel p.1 (else_pos + 1) end_pos with
                  | (rt2, true) =>
                      if rt2.has_error then (rt2, false)
                      else pith_execute_body fuel rt2 (end_pos + 1) body_end
                  | (rt2, false) => (rt2, false)
                else
                  if p.1.has_error then (p.1, false)
                  else pith_execute_body fuel p.1 (end_pos + 1) body_end
            else (pith_error rt (cstr "if requires condition on stack"), false)
        | .do_ =>
            let bend := pith_do_scan rt.tokens body_end (body_end + 1 - i) (i + 1) 1
            let rt1 := (pith_push rt (.block (i + 1) bend)).1
            if rt1.has_error then (rt1, false)
            else pith_execute_body fuel rt1 (bend + 1) body_end
        | .lbracket =>
            let stack_before := rt.stack.length
            let arr_end := pith_bracket_scan rt.tokens body_end
              (body_end - (i + 1)) (i + 1) 1 (i + 1)
            let p := pith_execute_body fuel rt (i + 1) arr_end
            let num_items := p.1.stack.length - stack_before
            let items := (p.1.stack.take num_items).reverse
            let rt2 := { p.1 with stack := p.1.stack.drop num_items }
            let rt3 := (pith_push rt2 (.arr items)).1
            if rt3.has_error then (rt3, false)
            else pith_execute_body fuel rt3 (arr_end + 1) body_end
        | _ =>
            if rt.has_error then (rt, false)
            else pith_execute_body fuel rt (i + 1) body_end
      else (rt, true)

end

def c5_empty_rt : PithRuntime :=
  { stack := [], tokens := [], root := .mk none none [], current_dict := none,
    signals := [], has_error := false, error := [] }

def c5_type_error_rt : PithRuntime :=
  { stack := [.nil, .nil], tokens := [], root := .mk none none [], current_dict := none,
    signals := [], has_error := false, error := [] }

/-! ## C10: map get/has/keys -/

/-- A dictionary with no local slots whose parent holds `"k"`:
`has` follows the parent chain, `keys` lists only local names. -/
def c10_parent_dict : PithDict :=
  .mk none (some (.mk none none [.mk (cstr "k") 0 0 (some .nil)])) []

/-! ## Loading: the third pass of `pith_runtime_load_string`

The pass walks the root dictionary's slots; only a slot whose cached
value is a dictionary is entered, and inside it every still-uncached
slot whose body is a single literal token is cached, and every one
whose body is `<literal> signal` gets a cached signal freshly
registered with the runtime (`pith_signal_new` appends to
`rt->all_signals`; the value holds the new index). -/

/-- The literal-token values of the third pass's switch. -/
def pith_literal_token_value : PithTok → Option PithValue
  | .str s => some (.str s)
  | .num n => some (.num n)
  | .true_ => some (.bool true)
  | .false_ => some (.bool false)
  | .nil_ => some (.nil)
  | _ => none

/-- The per-slot body of the third pass: literal caching, then the
`<literal> signal` pattern. -/
def pith_third_pass_slot (tokens : List PithTok) (slot : PithSlot)
    (sigs : List PithSignalState) : PithSlot × List PithSignalState :=
  match slot with
  | .mk _ _ _ (some _) => (slot, sigs)
  | .mk nm bs be none =>
      let slot1 : PithSlot :=
        if be - bs = 1 then
          match pith_literal_token_value (tokens.getD bs .eof) with
          | some v => .mk nm bs be (some v)
          | none => .mk nm bs be none
        else .mk nm bs be none
      if be - bs = 2 then
        match tokens.getD (bs + 1) .eof with
        | .word w =>
            if w = cstr "signal" then
              match pith_literal_token_value (tokens.getD bs .eof) with
              | some v => (.mk nm bs be (some (.signal sigs.length)), sigs ++ [⟨v, false⟩])
              | none => (slot1, sigs)
            else (slot1, sigs)
        | _ => (slot1, sigs)
      else (slot1, sigs)

/-- The slot loop of the third pass over one dictionary. -/
def pith_third_pass_slots (tokens : List PithTok) :
    List PithSlot → List PithSignalState → List PithSlot × List PithSignalState
  | [], sigs => ([], sigs)
  | s :: rest, sigs =>
      let p := pith_third_pass_slot tokens s sigs
      let q := pith_third_pass_slots tokens rest p.2
      (p.1 :: q.1, q.2)

/-- The outer loop of the third pass over the root dictionary's slots:
slots whose cached value is not a dictionary are skipped. -/
def pith_third_pass_root (tokens : List PithTok) :
    List PithSlot → List PithSignalState → List PithSlot × List PithSignalState
  | [], sigs => ([], sigs)
  | .mk nm bs be (some (.dict (.mk dn dp dslots))) :: rest, sigs =>
      let p := pith_third_pass_slots tokens dslots sigs
      let q := pith_third_pass_root tokens rest p.2
      (.mk nm bs be (some (.dict (.mk dn dp p.1))) :: q.1, q.2)
  | s :: rest, sigs =>
      let q := pith_third_pass_root tokens rest sigs
      (s :: q.1, q.2)

/-- The whole third pass on the root dictionary and signal registry. -/
def pith_load_third_pass (tokens : List PithTok) (root : PithDict)
    (sigs : List PithSignalState) : PithDict × List PithSignalState :=
  match root with
  | .mk rn rp rslots =>
      let p := pith_third_pass_root tokens rslots sigs
      (.mk rn rp p.1, p.2)

/-! ## C7: the dotted signal write/read scenario -/

/-- The `app` dictionary after loading `count: 0 signal` (slot cached
with signal index 0). -/
def c7_appdict : PithDict :=
  .mk (some (cstr "app")) none [.mk (cstr "count") 0 0 (some (.signal 0))]

/-- The loaded runtime: signal 0 wraps `0` and is clean; the token
stream holds `5 app.count!` (positions 0–3) and `app.count`
(positions 4–6). -/
def c7_rt : PithRuntime :=
  { stack := [],
    tokens := [.num 5, .word (cstr "app"), .dot, .word (cstr "count!"),
      .word (cstr "app"), .dot, .word (cstr "count")],
    root := .mk none none [.mk (cstr "app") 0 0 (some (.dict c7_appdict))],
    current_dict := none, signals := [⟨.num 0, false⟩],
    has_error := false, error := [] }

/-- `c7_rt` with the `count` slot cached as a plain number instead of
a signal: the `!` write must fail. -/
def c7_bad_rt : PithRuntime :=
  { stack := [],
    tokens := [.num 5, .word (cstr "app"), .dot, .word (cstr "count!")],
    root := .mk none none [.mk (cstr "app") 0 0 (some (.dict
      (.mk (some (cstr "app")) none [.mk (cstr "count") 0 0 (some (.num 0))])))],
    current_dict := none, signals := [],
    has_error := false, error := [] }

/-! ## C3: truthiness and the `if` construct -/

/-- Tokens that leave the `if` scan's nesting depth and positions
untouched (everything except `if`, `do`, `else`, `end`). -/
def pith_tok_plain : PithTok → Bool
  | .if_ => false
  | .do_ => false
  | .else_ => false
  | .end_ => false
  | _ => true

/-- The concrete construct `if 1 else 2 end` over the condition `[]`
(the empty array). -/
def c3_rt : PithRuntime :=
  { stack := [.arr []],
    tokens := [.if_, .num 1, .else_, .num 2, .end_],
    root := .mk none none [], current_dict := none, signals := [],
    has_error := false, error := [] }

theorem gapbuf_inv_from_string (s : CStr) : gapbuf_inv (pith_gapbuf_from_string s) := by
  refine ⟨Nat.zero_le _, ?_, ?_⟩ <;>
    simp only [pith_gapbuf_from_string, GAP_BUFFER_MIN_GAP, List.length_append,
      List.length_replicate] <;> omega

theorem gapbuf_length_from_string (s : CStr) :
    pith_gapbuf_length (pith_gapbuf_from_string s) = s.length := by
  simp only [pith_gapbuf_length, pith_gapbuf_from_string, GAP_BUFFER_MIN_GAP]
  omega

/-- Content after moving the gap left, stated on raw components. -/
theorem cmemmove_content_left (buf : CStr) (gs ge pos : Nat)
    (h1 : gs ≤ ge) (h2 : ge ≤ buf.length) (hlt : pos < gs) :
    (cmemmove buf (ge - (gs - pos)) pos (gs - pos)).take pos
      ++ (cmemmove buf (ge - (gs - pos)) pos (gs - pos)).drop (ge - (gs - pos))
      = buf.take gs ++ buf.drop ge := by
  set shift := gs - pos with hshift
  set dst := ge - shift with hdst
  have hds : dst + shift = ge := by omega
  have lT : (buf.take dst).length = dst := by rw [List.length_take]; omega
  have lM : ((buf.drop pos).take shift).length = shift := by
    rw [List.length_take, List.length_drop]; omega
  have hbuf : cmemmove buf dst pos shift
      = buf.take dst ++ ((buf.drop pos).take shift ++ buf.drop (dst + shift)) := by
    rw [cmemmove, List.append_assoc]
  have htake : (cmemmove buf dst pos shift).take pos = buf.take pos := by
    rw [hbuf, List.take_append_eq_append_take, lT, List.take_take,
        Nat.min_eq_left (by omega), Nat.sub_eq_zero_of_le (by omega),
        List.take_zero, List.append_nil]
  have hdrop : (cmemmove buf dst pos shift).drop dst
      = (buf.drop pos).take shift ++ buf.drop ge := by
    rw [hbuf, List.drop_append_eq_append_drop, lT,
        List.drop_of_length_le (le_of_eq lT), Nat.sub_self, List.drop_zero,
        List.nil_append, hds]
  rw [htake, hdrop, ← List.append_assoc]
  congr 1
  rw [← List.take_add]
  congr 1
  omega

/-- Content after moving the gap right, stated on raw components. -/
theorem cmemmove_content_right (buf : CStr) (gs ge pos : Nat)
    (h1 : gs ≤ ge) (h2 : ge ≤ buf.length) (hgt : gs < pos)
    (hle : pos ≤ buf.length - (ge - gs)) :
    (cmemmove buf gs ge (pos - gs)).take pos
      ++ (cmemmove buf gs ge (pos - gs)).drop (ge + (pos - gs))
      = buf.take gs ++ buf.drop ge := by
  set shift := pos - gs with hshift
  have hcap : ge + shift ≤ buf.length := by omega
  have lT : (buf.take gs).length = gs := by rw [List.length_take]; omega
  have lM : ((buf.drop ge).take shift).length = shift := by
    rw [List.length_take, List.length_drop]; omega
  have hbuf : cmemmove buf gs ge shift
      = buf.take gs ++ ((buf.drop ge).take shift ++ buf.drop (gs + shift)) := by
    rw [cmemmove, List.append_assoc]
  have htake : (cmemmove buf gs ge shift).take pos
      = buf.take gs ++ (buf.drop ge).take shift := by
    rw [hbuf, List.take_append_eq_append_take, lT,
        List.take_of_length_le (by omega : (buf.take gs).length ≤ pos),
        List.take_append_eq_append_take, lM,
        List.take_of_length_le (by omega : ((buf.drop ge).take shift).length ≤ pos - gs),
        Nat.sub_sub, Nat.sub_eq_zero_of_le (by omega), List.take_zero,
        List.append_nil]
  have e1 : ge + shift - gs - shift = ge - gs := by omega
  have e2 : gs + shift + (ge - gs) = ge + shift := by omega
  have hdrop : (cmemmove buf gs ge shift).drop (ge + shift)
      = buf.drop (ge + shift) := by
    rw [hbuf, List.drop_append_eq_append_drop, lT,
        List.drop_of_length_le (by omega : (buf.take gs).length ≤ ge + shift),
        List.nil_append, List.drop_append_eq_append_drop, lM,
        List.drop_of_length_le (by omega : ((buf.drop ge).take shift).length ≤ ge + shift - gs),
        List.nil_append, e1, List.drop_drop, e2]
  have e3 : buf.drop (ge + shift) = (buf.drop ge).drop shift := by
    rw [List.drop_drop, Nat.add_comm]
  rw [htake, hdrop, e3, List.append_assoc, List.take_append_drop]

/-- Length of the byte region is unchanged by `cmemmove` with in-range
arguments. -/
theorem cmemmove_length (l : CStr) (dst src n : Nat)
    (h1 : dst + n ≤ l.length) (h2 : src + n ≤ l.length) :
    (cmemmove l dst src n).length = l.length := by
  simp only [cmemmove, List.length_append, List.length_take, List.length_drop]
  rw [Nat.min_eq_left (by omega), Nat.min_eq_left (by omega)]
  omega

/-- Relocating the gap to any in-range position preserves the content. -/
theorem to_string_move_gap_at (gb : PithGapBuffer) (pos : Nat) (hinv : gapbuf_inv gb)
    (hple : pos ≤ pith_gapbuf_length gb) :
    pith_gapbuf_to_string (pith_gapbuf_move_gap_at gb pos) = pith_gapbuf_to_string gb := by
  obtain ⟨h1, h2, h3⟩ := hinv
  have hlen : pith_gapbuf_length gb = gb.capacity - (gb.gap_end - gb.gap_start) := rfl
  rw [pith_gapbuf_move_gap_at]
  by_cases heq : pos = gb.gap_start
  · rw [if_pos heq]
  · rw [if_neg heq]
    by_cases hlt : pos < gb.gap_start
    · rw [if_pos hlt]
      exact cmemmove_content_left gb.buffer gb.gap_start gb.gap_end pos h1
        (by omega) hlt
    · rw [if_neg hlt]
      exact cmemmove_content_right gb.buffer gb.gap_start gb.gap_end pos h1
        (by omega) (by omega) (by rw [hlen, ← h3] at hple; omega)

/-- Relocating the gap to any in-range position preserves the invariant. -/
theorem gapbuf_inv_move_gap_at (gb : PithGapBuffer) (pos : Nat) (hinv : gapbuf_inv gb)
    (hple : pos ≤ pith_gapbuf_length gb) :
    gapbuf_inv (pith_gapbuf_move_gap_at gb pos) := by
  obtain ⟨h1, h2, h3⟩ := hinv
  have hlen : pith_gapbuf_length gb = gb.capacity - (gb.gap_end - gb.gap_start) := rfl
  rw [hlen] at hple
  rw [pith_gapbuf_move_gap_at]
  by_cases heq : pos = gb.gap_start
  · rw [if_pos heq]; exact ⟨h1, h2, h3⟩
  · rw [if_neg heq]
    by_cases hlt : pos < gb.gap_start
    · rw [if_pos hlt]
      unfold gapbuf_inv
      dsimp only
      refine ⟨by omega, by omega, ?_⟩
      rw [cmemmove_length _ _ _ _ (by omega) (by omega), h3]
    · rw [if_neg hlt]
      unfold gapbuf_inv
      dsimp only
      refine ⟨by omega, by omega, ?_⟩
      rw [cmemmove_length _ _ _ _ (by omega) (by omega), h3]

/-- Cursor motion never changes the content: `move_gap` preserves
`to_string` on every invariant-satisfying buffer. -/
theorem to_string_move_gap (gb : PithGapBuffer) (pos : Nat) (hinv : gapbuf_inv gb) :
    pith_gapbuf_to_string (pith_gapbuf_move_gap gb pos) = pith_gapbuf_to_string gb := by
  rw [pith_gapbuf_move_gap]
  exact to_string_move_gap_at gb _ hinv (by split <;> omega)

/-- `move_gap` preserves the representation invariant. -/
theorem gapbuf_inv_move_gap (gb : PithGapBuffer) (pos : Nat) (hinv : gapbuf_inv gb) :
    gapbuf_inv (pith_gapbuf_move_gap gb pos) := by
  rw [pith_gapbuf_move_gap]
  exact gapbuf_inv_move_gap_at gb _ hinv (by split <;> omega)

/-- Reading back a freshly built gap buffer yields the original string. -/
theorem to_string_from_string (s : CStr) :
    pith_gapbuf_to_string (pith_gapbuf_from_string s) = s := by
  simp only [pith_gapbuf_to_string, pith_gapbuf_from_string, List.take_zero,
    List.nil_append]
  rw [List.drop_append_eq_append_drop, List.length_replicate,
      List.drop_of_length_le (by rw [List.length_replicate]),
      Nat.sub_self, List.drop_zero, List.nil_append]

/-- C8.  For every string `s` and position `p ≤ length s`, building a gap
buffer with `string-to-gap`, moving the cursor there with `gap-goto`
(which, like every gap-buffer builtin, first duplicates the buffer with
`pith_gapbuf_copy`), and reading back with `gap-to-string` yields exactly
`s`; the `move_gap` primitive never changes the content of any buffer
satisfying the representation invariant; and the invariant
`gap_start ≤ gap_end ≤ capacity` holds after each of these operations. -/
theorem C8_gapbuf_content_invariant (s : CStr) (p : Nat) (hp : p ≤ s.length) :
    pith_gapbuf_to_string
        (pith_gapbuf_goto (pith_gapbuf_copy (pith_gapbuf_from_string s)) p) = s
    ∧ (∀ (gb : PithGapBuffer) (pos : Nat), gapbuf_inv gb →
        pith_gapbuf_to_string (pith_gapbuf_move_gap gb pos) = pith_gapbuf_to_string gb)
    ∧ gapbuf_inv (pith_gapbuf_from_string s)
    ∧ gapbuf_inv (pith_gapbuf_goto (pith_gapbuf_copy (pith_gapbuf_from_string s)) p)
    ∧ (∀ (gb : PithGapBuffer) (pos : Nat), gapbuf_inv gb →
        gapbuf_inv (pith_gapbuf_move_gap gb pos)) := by
  have hinv := gapbuf_inv_from_string s
  refine ⟨?_, fun gb pos h => to_string_move_gap gb pos h, hinv, ?_,
    fun gb pos h => gapbuf_inv_move_gap gb pos h⟩
  · rw [pith_gapbuf_copy, pith_gapbuf_goto, to_string_move_gap _ _ hinv,
      to_string_from_string]
  · exact gapbuf_inv_move_gap _ _ hinv

/-- C8 witness: the round trip evaluated at `s = "pith"`, `p = 2`. -/
theorem C8_gapbuf_content_invariant_witness :
    pith_gapbuf_to_string
        (pith_gapbuf_goto (pith_gapbuf_copy (pith_gapbuf_from_string (cstr "pith"))) 2)
      = cstr "pith" :=
  (C8_gapbuf_content_invariant (cstr "pith") 2 (by decide)).1

theorem map_set_entries_of_not_mem (l : List (CStr × PithValue)) (k : CStr)
    (v : PithValue) (h : k ∉ entry_keys l) :
    pith_map_set_entries l k v = l ++ [(k, v)] := by
  induction l with
  | nil => rfl
  | cons p rest ih =>
      obtain ⟨k0, v0⟩ := p
      simp only [entry_keys, List.map_cons, List.mem_cons] at h
      push_neg at h
      rw [pith_map_set_entries, if_neg (by exact fun e => h.1 e.symm),
        List.cons_append]
      rw [ih (by simpa [entry_keys] using h.2)]

theorem entry_keys_map_set_of_mem (l : List (CStr × PithValue)) (k : CStr)
    (v : PithValue) (h : k ∈ entry_keys l) :
    entry_keys (pith_map_set_entries l k v) = entry_keys l := by
  induction l with
  | nil => simp [entry_keys] at h
  | cons p rest ih =>
      obtain ⟨k0, v0⟩ := p
      rw [pith_map_set_entries]
      by_cases hk : k0 = k
      · rw [if_pos hk]; simp [entry_keys]
      · rw [if_neg hk]
        simp only [entry_keys, List.map_cons, List.mem_cons] at h ⊢
        rcases h with h | h
        · exact absurd h.symm hk
        · rw [show List.map Prod.fst (pith_map_set_entries rest k v)
              = entry_keys (pith_map_set_entries rest k v) from rfl,
            ih h]
          rfl

theorem entry_keys_nodup_map_set (l : List (CStr × PithValue)) (k : CStr)
    (v : PithValue) (h : (entry_keys l).Nodup) :
    (entry_keys (pith_map_set_entries l k v)).Nodup := by
  by_cases hm : k ∈ entry_keys l
  · rw [entry_keys_map_set_of_mem l k v hm]; exact h
  · rw [map_set_entries_of_not_mem l k v hm]
    simp only [entry_keys, List.map_append, List.map_cons, List.map_nil] at h ⊢
    simp only [List.nodup_append, List.nodup_cons, List.nodup_nil]
    refine ⟨h, ⟨by simp, trivial⟩, ?_⟩
    intro a ha
    simp only [List.mem_singleton]
    intro e
    subst e
    exact hm (by simpa [entry_keys] using ha)

theorem entry_keys_nodup_map_set_fold (acc es : List (CStr × PithValue))
    (h : (entry_keys acc).Nodup) :
    (entry_keys (pith_map_set_fold acc es)).Nodup := by
  induction es generalizing acc with
  | nil => exact h
  | cons p rest ih =>
      obtain ⟨k, v⟩ := p
      rw [pith_map_set_fold]
      exact ih _ (entry_keys_nodup_map_set acc k v h)

theorem map_set_fold_append (acc es : List (CStr × PithValue))
    (h : (entry_keys acc ++ entry_keys es).Nodup) :
    pith_map_set_fold acc es = acc ++ es := by
  induction es generalizing acc with
  | nil => simp [pith_map_set_fold]
  | cons p rest ih =>
      obtain ⟨k, v⟩ := p
      have hk : k ∉ entry_keys acc := by
        intro hm
        rcases List.nodup_append.mp h with ⟨_, _, hdisj⟩
        exact hdisj hm (by simp [entry_keys])
      rw [pith_map_set_fold, map_set_entries_of_not_mem acc k v hk, ih]
      · simp
      · have : entry_keys (acc ++ [(k, v)]) ++ entry_keys rest
              = entry_keys acc ++ entry_keys ((k, v) :: rest) := by
          simp [entry_keys]
        rw [this]
        exact h

theorem map_from_entries_self (l : List (CStr × PithValue))
    (h : (entry_keys l).Nodup) : pith_map_from_entries l = l := by
  rw [pith_map_from_entries, map_set_fold_append]
  · simp
  · simpa [entry_keys] using h

theorem mem_values_map_set (l : List (CStr × PithValue)) (k : CStr)
    (v x : PithValue) (hx : x ∈ entry_values (pith_map_set_entries l k v)) :
    x ∈ entry_values l ∨ x = v := by
  induction l with
  | nil => simpa [pith_map_set_entries, entry_values] using hx
  | cons p rest ih =>
      obtain ⟨k0, v0⟩ := p
      rw [pith_map_set_entries] at hx
      by_cases hk : k0 = k
      · rw [if_pos hk] at hx
        simp only [entry_values, List.map_cons, List.mem_cons] at hx ⊢
        tauto
      · rw [if_neg hk] at hx
        simp only [entry_values, List.map_cons, List.mem_cons] at hx ⊢
        rcases hx with hx | hx
        · tauto
        · rcases ih (by simpa [entry_values] using hx) with h | h <;> tauto

theorem mem_values_map_set_fold (acc es : List (CStr × PithValue))
    (x : PithValue) (hx : x ∈ entry_values (pith_map_set_fold acc es)) :
    x ∈ entry_values acc ∨ x ∈ entry_values es := by
  induction es generalizing acc with
  | nil => exact Or.inl hx
  | cons p rest ih =>
      obtain ⟨k, v⟩ := p
      rw [pith_map_set_fold] at hx
      have hcons : entry_values ((k, v) :: rest) = v :: entry_values rest := rfl
      rcases ih _ hx with h | h
      · rcases mem_values_map_set acc k v x h with h2 | h2
        · exact Or.inl h2
        · subst h2
          exact Or.inr (hcons ▸ List.mem_cons_self _ _)
      · exact Or.inr (hcons ▸ List.mem_cons_of_mem _ h)

theorem entry_keys_entries_copy (l : List (CStr × PithValue)) :
    entry_keys (pith_entries_copy l) = entry_keys l := by
  induction l with
  | nil => rfl
  | cons p rest ih =>
      obtain ⟨k, v⟩ := p
      show k :: entry_keys (pith_entries_copy rest) = k :: entry_keys rest
      rw [ih]

theorem entries_copy_map_set (l : List (CStr × PithValue)) (k : CStr) (v : PithValue) :
    pith_entries_copy (pith_map_set_entries l k v)
      = pith_map_set_entries (pith_entries_copy l) k (pith_value_copy v) := by
  induction l with
  | nil => rfl
  | cons p rest ih =>
      obtain ⟨k0, v0⟩ := p
      by_cases hk : k0 = k
      · simp [pith_map_set_entries, pith_entries_copy, hk]
      · simp [pith_map_set_entries, pith_entries_copy, hk, ih]

theorem entries_copy_map_set_fold (es : List (CStr × PithValue)) :
    ∀ acc, pith_entries_copy (pith_map_set_fold acc es)
      = pith_map_set_fold (pith_entries_copy acc) (pith_entries_copy es) := by
  induction es with
  | nil => intro acc; rfl
  | cons p rest ih =>
      intro acc
      obtain ⟨k, v⟩ := p
      show pith_entries_copy (pith_map_set_fold (pith_map_set_entries acc k v) rest)
          = pith_map_set_fold (pith_entries_copy acc) (pith_entries_copy ((k, v) :: rest))
      rw [ih, entries_copy_map_set]
      rfl

theorem entries_copy_from_entries (l : List (CStr × PithValue)) :
    pith_entries_copy (pith_map_from_entries l)
      = pith_map_from_entries (pith_entries_copy l) := by
  rw [pith_map_from_entries, pith_map_from_entries, entries_copy_map_set_fold]
  rfl

mutual

theorem pith_value_copy_idem : ∀ v : PithValue,
    pith_value_copy (pith_value_copy v) = pith_value_copy v
  | .nil => rfl
  | .bool _ => rfl
  | .num _ => rfl
  | .str _ => rfl
  | .arr items => by
      simp only [pith_value_copy]
      rw [pith_values_copy_idem items]
  | .map entries => by
      simp only [pith_value_copy]
      rw [entries_copy_from_entries, pith_entries_copy_idem entries,
        map_from_entries_self (pith_map_from_entries (pith_entries_copy entries))
          (entry_keys_nodup_map_set_fold [] _ List.nodup_nil)]
  | .block _ _ => rfl
  | .view _ => rfl
  | .dict _ => rfl
  | .gapbuf _ => rfl
  | .signal _ => rfl

theorem pith_values_copy_idem : ∀ l : List PithValue,
    pith_values_copy (pith_values_copy l) = pith_values_copy l
  | [] => rfl
  | v :: rest => by
      simp only [pith_values_copy]
      rw [pith_value_copy_idem v, pith_values_copy_idem rest]

theorem pith_entries_copy_idem : ∀ l : List (CStr × PithValue),
    pith_entries_copy (pith_entries_copy l) = pith_entries_copy l
  | [] => rfl
  | (k, v) :: rest => by
      simp only [pith_entries_copy]
      rw [pith_value_copy_idem v, pith_entries_copy_idem rest]

end

theorem slots_set_value_of_pairs (ps : List (CStr × PithValue)) (k : CStr) (v : PithValue) :
    pith_slots_set_value (slots_of_pairs ps) k v = slots_of_pairs (pith_map_set_entries ps k v) := by
  induction ps with
  | nil => rfl
  | cons p rest ih =>
      obtain ⟨k0, v0⟩ := p
      by_cases hk : k0 = k
      · simp [slots_of_pairs, pith_slots_set_value, pith_map_set_entries, hk, PithSlot.name]
      · simp only [slots_of_pairs, List.map_cons, pith_slots_set_value, PithSlot.name,
          pith_map_set_entries, if_neg hk]
        rw [show List.map (fun p => PithSlot.mk p.1 0 0 (some p.2)) rest = slots_of_pairs rest from rfl,
          ih]
        rfl

theorem slots_set_fold_of_pairs (es : List (CStr × PithValue)) :
    ∀ ps, slots_set_fold (slots_of_pairs ps) es = slots_of_pairs (pith_map_set_fold ps es) := by
  induction es with
  | nil => intro ps; rfl
  | cons p rest ih =>
      intro ps
      obtain ⟨k, v⟩ := p
      show slots_set_fold (pith_slots_set_value (slots_of_pairs ps) k v) rest = _
      rw [slots_set_value_of_pairs, ih]
      rfl

theorem dict_sanitize_loop_closed (l : List PithSlot) :
    ∀ (nm : Option CStr) (pr : Option PithDict) (acc : List PithSlot),
      pith_dict_sanitize_loop l (.mk nm pr acc)
        = .mk nm pr (slots_set_fold acc (san_pairs l)) := by
  induction l with
  | nil => intro nm pr acc; rfl
  | cons s rest ih =>
      intro nm pr acc
      obtain ⟨nm0, bs, be, c⟩ := s
      cases c with
      | none =>
          simp only [pith_dict_sanitize_loop]
          rw [ih]
          rfl
      | some cv =>
          simp only [pith_dict_sanitize_loop, pith_dict_set_value, PithDict.name,
            PithDict.parent, PithDict.slots]
          rw [ih]
          rfl

theorem dict_sanitize_closed (n : Option CStr) (p : Option PithDict) (slots : List PithSlot) :
    pith_dict_sanitize (.mk n p slots)
      = .mk n none (slots_of_pairs (pith_map_from_entries (san_pairs slots))) := by
  simp only [pith_dict_sanitize]
  rw [dict_sanitize_loop_closed,
    show ([] : List PithSlot) = slots_of_pairs [] from rfl,
    slots_set_fold_of_pairs]
  rfl

theorem san_pairs_of_pairs (ps : List (CStr × PithValue)) :
    san_pairs (slots_of_pairs ps) = ps.map (fun p => (p.1, pith_value_sanitize p.2)) := by
  induction ps with
  | nil => rfl
  | cons p rest ih =>
      obtain ⟨k, v⟩ := p
      have hstep : san_pairs (slots_of_pairs ((k, v) :: rest))
          = (k, pith_value_sanitize v) :: san_pairs (slots_of_pairs rest) := rfl
      rw [hstep, ih, List.map_cons]

theorem map_pairs_eq_self (ps : List (CStr × PithValue))
    (h : ∀ p ∈ ps, pith_value_sanitize p.2 = p.2) :
    ps.map (fun p => (p.1, pith_value_sanitize p.2)) = ps := by
  induction ps with
  | nil => rfl
  | cons p rest ih =>
      obtain ⟨k, v⟩ := p
      rw [List.map_cons, h (k, v) (List.mem_cons_self _ _),
        ih (fun q hq => h q (List.mem_cons_of_mem _ hq))]

mutual

theorem pith_value_sanitize_idem : ∀ v : PithValue,
    pith_value_sanitize (pith_value_sanitize v) = pith_value_sanitize v
  | .nil => by simp only [pith_value_sanitize, pith_value_copy]
  | .bool _ => by simp only [pith_value_sanitize, pith_value_copy]
  | .num _ => by simp only [pith_value_sanitize, pith_value_copy]
  | .str _ => by simp only [pith_value_sanitize, pith_value_copy]
  | .arr items => by
      simp only [pith_value_sanitize]
      rw [pith_array_sanitize_idem items]
  | .map entries => by
      simp only [pith_value_sanitize, pith_value_copy]
      exact congrArg PithValue.map
        (by
          rw [entries_copy_from_entries, pith_entries_copy_idem entries,
            map_from_entries_self (pith_map_from_entries (pith_entries_copy entries))
              (entry_keys_nodup_map_set_fold [] _ List.nodup_nil)])
  | .block _ _ => by simp only [pith_value_sanitize, pith_value_copy]
  | .view _ => by simp only [pith_value_sanitize, pith_value_copy]
  | .dict d => by
      simp only [pith_value_sanitize]
      rw [pith_dict_sanitize_idem d]
  | .gapbuf g => by simp only [pith_value_sanitize, pith_value_copy, pith_gapbuf_copy]
  | .signal _ => by simp only [pith_value_sanitize, pith_value_copy]

theorem pith_array_sanitize_idem : ∀ l : List PithValue,
    pith_array_sanitize (pith_array_sanitize l) = pith_array_sanitize l
  | [] => rfl
  | v :: rest => by
      simp only [pith_array_sanitize]
      rw [pith_value_sanitize_idem v, pith_array_sanitize_idem rest]

theorem san_pairs_values_idem : ∀ (l : List PithSlot) (v : PithValue),
    v ∈ entry_values (san_pairs l) → pith_value_sanitize v = v
  | [], v, hv => by simp [san_pairs, entry_values] at hv
  | .mk nm bs be none :: rest, v, hv => by
      have : entry_values (san_pairs (.mk nm bs be none :: rest))
          = entry_values (san_pairs rest) := rfl
      rw [this] at hv
      exact san_pairs_values_idem rest v hv
  | .mk nm bs be (some c) :: rest, v, hv => by
      have : entry_values (san_pairs (.mk nm bs be (some c) :: rest))
          = pith_value_sanitize c :: entry_values (san_pairs rest) := rfl
      rw [this] at hv
      rcases List.mem_cons.mp hv with h | h
      · subst h; exact pith_value_sanitize_idem c
      · exact san_pairs_values_idem rest v h

theorem pith_dict_sanitize_idem : ∀ d : PithDict,
    pith_dict_sanitize (pith_dict_sanitize d) = pith_dict_sanitize d
  | .mk n p slots => by
      have hval : ∀ q ∈ pith_map_from_entries (san_pairs slots),
          pith_value_sanitize q.2 = q.2 := by
        intro q hq
        have hv : q.2 ∈ entry_values (pith_map_set_fold [] (san_pairs slots)) :=
          List.mem_map_of_mem Prod.snd hq
        rcases mem_values_map_set_fold [] _ _ hv with h | h
        · exact absurd h (by simp [entry_values])
        · exact san_pairs_values_idem slots q.2 h
      rw [dict_sanitize_closed n p slots, dict_sanitize_closed, san_pairs_of_pairs,
        map_pairs_eq_self _ hval,
        map_from_entries_self (pith_map_from_entries (san_pairs slots))
          (entry_keys_nodup_map_set_fold [] _ List.nodup_nil)]

end

/-- C9.  `sanitize` is idempotent: applying `pith_value_sanitize` twice
yields the same value as applying it once, for every value. -/
theorem C9_sanitize_idempotent (v : PithValue) :
    pith_value_sanitize (pith_value_sanitize v) = pith_value_sanitize v :=
  pith_value_sanitize_idem v

/-- C1.  The persistent-map builtins `set`, `remove` and `merge` never
mutate their source dictionaries: after each call every previously
allocated dictionary — in particular the operand itself — still holds
exactly its old slot list (same slot names, same cached values), and the
result is a newly allocated dictionary (its address was unallocated
before the call) carrying the update computed from a copy of the source. -/
theorem C1_persistent_map_copy_on_write (s : DictStore) (a b x : Nat)
    (k : CStr) (v : PithValue) (ha : a < s.length) (hb : b < s.length)
    (hx : x < s.length) :
    ((builtin_map_set_st s a k v).1.get? x = s.get? x
      ∧ s.get? (builtin_map_set_st s a k v).2 = none
      ∧ (builtin_map_set_st s a k v).1.get? (builtin_map_set_st s a k v).2
          = some (pith_dict_set_value (pith_dict_copy ((s.get? a).getD (.mk none none []))) k v))
    ∧ ((builtin_map_remove_st s a k).1.get? x = s.get? x
      ∧ s.get? (builtin_map_remove_st s a k).2 = none
      ∧ (builtin_map_remove_st s a k).1.get? (builtin_map_remove_st s a k).2
          = some (pith_dict_remove_slot (pith_dict_copy ((s.get? a).getD (.mk none none []))) k))
    ∧ ((builtin_map_merge_st s a b).1.get? x = s.get? x
      ∧ s.get? (builtin_map_merge_st s a b).2 = none
      ∧ (builtin_map_merge_st s a b).1.get? (builtin_map_merge_st s a b).2
          = some (pith_dict_merge_loop ((s.get? b).getD (.mk none none [])).slots
              (pith_dict_copy ((s.get? a).getD (.mk none none []))))) := by
  have hget : ∀ (nd : PithDict), (s ++ [nd]).get? x = s.get? x := fun nd =>
    List.get?_append hx
  have hnone : s.get? s.length = none := by
    rw [List.get?_eq_none]
  have hlast : ∀ (nd : PithDict), (s ++ [nd]).get? s.length = some nd := fun nd =>
    List.get?_concat_length s nd
  exact ⟨⟨hget _, hnone, hlast _⟩, ⟨hget _, hnone, hlast _⟩, ⟨hget _, hnone, hlast _⟩⟩

/-- C1 witness: a two-dictionary store, updating the dictionary at
address 0 and observing address 1 untouched as well. -/
theorem C1_persistent_map_copy_on_write_witness :
    (builtin_map_set_st
        [PithDict.mk none none [.mk (cstr "x") 0 0 (some (.num 1))],
         PithDict.mk none none []] 0 (cstr "y") (.num 2)).1.get? 0
      = some (PithDict.mk none none [.mk (cstr "x") 0 0 (some (.num 1))]) :=
  ((C1_persistent_map_copy_on_write
      [PithDict.mk none none [.mk (cstr "x") 0 0 (some (.num 1))],
       PithDict.mk none none []] 0 1 0 (cstr "y") (.num 2)
      (by decide) (by decide) (by decide)).1.1).trans rfl

/-! ## Round-trip lemmas: numbers -/

theorem json_digit_char_spec (d : Nat) (h : d < 10) :
    json_is_digit (json_digit_char d) = true
      ∧ (json_digit_char d).toNat - '0'.toNat = d := by
  match d, h with
  | 0, _ => exact ⟨by decide, by decide⟩
  | 1, _ => exact ⟨by decide, by decide⟩
  | 2, _ => exact ⟨by decide, by decide⟩
  | 3, _ => exact ⟨by decide, by decide⟩
  | 4, _ => exact ⟨by decide, by decide⟩
  | 5, _ => exact ⟨by decide, by decide⟩
  | 6, _ => exact ⟨by decide, by decide⟩
  | 7, _ => exact ⟨by decide, by decide⟩
  | 8, _ => exact ⟨by decide, by decide⟩
  | 9, _ => exact ⟨by decide, by decide⟩
  | d + 10, h => exact absurd h (by omega)

theorem json_nat_digits_ne_nil (n : Nat) : json_nat_digits n ≠ [] := by
  rw [json_nat_digits]
  split <;> simp

theorem json_nat_digits_all_digit (n : Nat) :
    ∀ c ∈ json_nat_digits n, json_is_digit c = true := by
  induction n using Nat.strong_induction_on with
  | _ n ih =>
      intro c hc
      rw [json_nat_digits] at hc
      by_cases h : n < 10
      · rw [dif_pos h] at hc
        rw [List.mem_singleton] at hc
        subst hc
        exact (json_digit_char_spec n h).1
      · rw [dif_neg h] at hc
        rcases List.mem_append.mp hc with h2 | h2
        · exact ih (n / 10) (Nat.div_lt_self (by omega) (by omega)) c h2
        · rw [List.mem_singleton] at h2
          subst h2
          exact (json_digit_char_spec (n % 10) (Nat.mod_lt _ (by omega))).1

theorem json_digits_to_nat_append (l1 l2 : CStr) :
    json_digits_to_nat (l1 ++ l2)
      = (l2.foldl (fun acc c => acc * 10 + (c.toNat - '0'.toNat)) (json_digits_to_nat l1)) := by
  rw [json_digits_to_nat, json_digits_to_nat, List.foldl_append]

theorem json_digits_to_nat_nat_digits (n : Nat) :
    json_digits_to_nat (json_nat_digits n) = n := by
  induction n using Nat.strong_induction_on with
  | _ n ih =>
      rw [json_nat_digits]
      by_cases h : n < 10
      · rw [dif_pos h]
        show 0 * 10 + ((json_digit_char n).toNat - '0'.toNat) = n
        rw [(json_digit_char_spec n h).2]
        omega
      · rw [dif_neg h, json_digits_to_nat_append,
          ih (n / 10) (Nat.div_lt_self (by omega) (by omega))]
        show (n / 10) * 10 + ((json_digit_char (n % 10)).toNat - '0'.toNat) = n
        rw [(json_digit_char_spec (n % 10) (Nat.mod_lt _ (by omega))).2]
        omega

theorem json_take_digits_stop (cs : CStr) (h : json_num_delim cs = true) :
    json_take_digits cs = ([], cs) := by
  match cs with
  | [] => rfl
  | c :: rest =>
      rw [json_num_delim, Bool.not_eq_true'] at h
      rw [json_take_digits, if_neg (by rw [h]; simp)]

theorem json_take_digits_run (ds : CStr) (hds : ∀ c ∈ ds, json_is_digit c = true)
    (rest : CStr) (hrest : json_num_delim rest = true) :
    json_take_digits (ds ++ rest) = (ds, rest) := by
  induction ds with
  | nil => simpa using json_take_digits_stop rest hrest
  | cons c t ih =>
      rw [List.cons_append, json_take_digits,
        if_pos (hds c (List.mem_cons_self _ _)),
        ih (fun x hx => hds x (List.mem_cons_of_mem _ hx))]

theorem json_parse_number_format_g (n : Int) (rest : CStr)
    (hrest : json_num_delim rest = true) :
    json_parse_number (json_format_g n ++ rest) = (.num n, rest) := by
  rw [json_format_g]
  by_cases hn : n < 0
  · rw [if_pos hn, List.cons_append]
    rw [json_parse_number,
      json_take_digits_run _ (json_nat_digits_all_digit _) _ hrest,
      json_digits_to_nat_nat_digits]
    have : -(n.natAbs : Int) = n := by omega
    rw [this]
  · rw [if_neg hn]
    have hne : json_format_g n ≠ [] := by
      rw [json_format_g, if_neg hn]; exact json_nat_digits_ne_nil _
    obtain ⟨c0, t0, h0⟩ : ∃ c0 t0, json_nat_digits n.natAbs = c0 :: t0 := by
      match h : json_nat_digits n.natAbs with
      | [] => exact absurd h (json_nat_digits_ne_nil _)
      | c :: t => exact ⟨c, t, rfl⟩
    have hc0 : json_is_digit c0 = true :=
      json_nat_digits_all_digit _ c0 (h0 ▸ List.mem_cons_self _ _)
    have hcm : c0 ≠ '-' := by
      intro e
      subst e
      exact absurd hc0 (by decide)
    have harg : c0 :: (t0 ++ rest) = json_nat_digits n.natAbs ++ rest := by
      rw [h0]
      rfl
    rw [h0, List.cons_append, json_parse_number.eq_def]
    split
    · rename_i heq
      rw [List.cons.injEq] at heq
      exact absurd heq.1 hcm
    · rw [harg, json_take_digits_run _ (json_nat_digits_all_digit _) _ hrest]
      show (PithValue.num (json_digits_to_nat (json_nat_digits n.natAbs) : Nat), rest)
          = (PithValue.num n, rest)
      rw [json_digits_to_nat_nat_digits]
      have : (n.natAbs : Int) = n := by omega
      rw [this]

theorem json_parse_string_loop_quote (rest : CStr) :
    json_parse_string_loop ('"' :: rest) = ([], rest) := by
  rw [json_parse_string_loop]

theorem json_parse_string_loop_esc (e : Char) (rest : CStr) (he : e ≠ 'u') :
    json_parse_string_loop ('\\' :: e :: rest)
      = (json_unescape e :: (json_parse_string_loop rest).1,
         (json_parse_string_loop rest).2) := by
  rw [json_parse_string_loop, if_neg he]

theorem json_parse_string_loop_other (c : Char) (rest : CStr)
    (h1 : c ≠ '"') (h2 : c ≠ '\\') :
    json_parse_string_loop (c :: rest)
      = (c :: (json_parse_string_loop rest).1, (json_parse_string_loop rest).2) := by
  rw [json_parse_string_loop.eq_def]
  split
  · rename_i heq
    simp at heq
  · rename_i heq
    rw [List.cons.injEq] at heq
    exact absurd heq.1 h1
  · rename_i heq
    rw [List.cons.injEq] at heq
    exact absurd heq.1 h2
  · rename_i e r heq
    rw [List.cons.injEq] at heq
    exact absurd heq.1 h2
  · rename_i c2 r heq
    rw [List.cons.injEq] at heq
    obtain ⟨e1, e2⟩ := heq
    subst e1
    subst e2
    rfl

theorem json_escape_char_rt (c : Char) (rest : CStr) (hc : json_clean_char c = true) :
    json_parse_string_loop (json_escape_char c ++ rest)
      = (c :: (json_parse_string_loop rest).1, (json_parse_string_loop rest).2) := by
  rw [json_escape_char]
  by_cases h1 : c = '"'
  · rw [if_pos h1, h1]
    simp only [List.cons_append, List.nil_append]
    rw [json_parse_string_loop_esc _ _ (by decide)]
    rfl
  rw [if_neg h1]
  by_cases h2 : c = '\\'
  · rw [if_pos h2, h2]
    simp only [List.cons_append, List.nil_append]
    rw [json_parse_string_loop_esc _ _ (by decide)]
    rfl
  rw [if_neg h2]
  by_cases h3 : c = Char.ofNat 8
  · rw [if_pos h3, h3]
    simp only [List.cons_append, List.nil_append]
    rw [json_parse_string_loop_esc _ _ (by decide)]
    rfl
  rw [if_neg h3]
  by_cases h4 : c = Char.ofNat 12
  · rw [if_pos h4, h4]
    simp only [List.cons_append, List.nil_append]
    rw [json_parse_string_loop_esc _ _ (by decide)]
    rfl
  rw [if_neg h4]
  by_cases h5 : c = '\n'
  · rw [if_pos h5, h5]
    simp only [List.cons_append, List.nil_append]
    rw [json_parse_string_loop_esc _ _ (by decide)]
    rfl
  rw [if_neg h5]
  by_cases h6 : c = Char.ofNat 13
  · rw [if_pos h6, h6]
    simp only [List.cons_append, List.nil_append]
    rw [json_parse_string_loop_esc _ _ (by decide)]
    rfl
  rw [if_neg h6]
  by_cases h7 : c = '\t'
  · rw [if_pos h7, h7]
    simp only [List.cons_append, List.nil_append]
    rw [json_parse_string_loop_esc _ _ (by decide)]
    rfl
  rw [if_neg h7]
  have hofn : ∀ m : Nat, c.toNat = m → c = Char.ofNat m := by
    intro m hm
    rw [← hm, Char.ofNat_toNat]
  have h8 : ¬(c.toNat < 32) := by
    intro hlt
    have n8 : c.toNat ≠ 8 := fun hm => h3 (hofn 8 hm)
    have n9 : c.toNat ≠ 9 := fun hm => h7 (by rw [hofn 9 hm])
    have n10 : c.toNat ≠ 10 := fun hm => h5 (by rw [hofn 10 hm])
    have n12 : c.toNat ≠ 12 := fun hm => h4 (hofn 12 hm)
    have n13 : c.toNat ≠ 13 := fun hm => h6 (hofn 13 hm)
    have hfalse : json_clean_char c = false := by
      rw [json_clean_char]
      simp only [Bool.or_eq_false_iff, decide_eq_false_iff_not]
      refine ⟨⟨⟨⟨⟨?_, ?_⟩, ?_⟩, ?_⟩, ?_⟩, ?_⟩ <;> omega
    rw [hfalse] at hc
    exact Bool.false_ne_true hc
  rw [if_neg h8, List.singleton_append]
  exact json_parse_string_loop_other c rest h1 h2

theorem json_escape_chars_rt (s : CStr) (rest : CStr) (hs : json_clean_str s = true) :
    json_parse_string_loop (json_escape_chars s ++ '"' :: rest) = (s, rest) := by
  induction s with
  | nil => exact json_parse_string_loop_quote rest
  | cons c t ih =>
      rw [json_clean_str, List.all_cons, Bool.and_eq_true] at hs
      rw [json_escape_chars, List.append_assoc,
        json_escape_char_rt c _ hs.1, ih hs.2]

mutual

theorem pith_struct_eq_canon : ∀ v : PithValue, json_pure_value v = true →
    pith_struct_eq v (json_canon v) = true
  | .nil, _ => rfl
  | .bool b, _ => by simp [json_canon, pith_struct_eq]
  | .num n, _ => by simp [json_canon, pith_struct_eq]
  | .str s, _ => by simp [json_canon, pith_struct_eq]
  | .arr items, h => by
      simp only [json_canon, pith_struct_eq]
      exact pith_struct_eq_canon_items items (by simpa [json_pure_value] using h)
  | .dict (.mk n p slots), h => by
      simp only [json_canon, pith_struct_eq]
      refine pith_struct_eq_canon_slots slots ?_
      have h2 := h
      rw [json_pure_value, json_pure_dict, Bool.and_eq_true] at h2
      exact h2.1

theorem pith_struct_eq_canon_items : ∀ l : List PithValue, json_pure_items l = true →
    pith_struct_eq_items l (json_canon_items l) = true
  | [], _ => rfl
  | v :: rest, h => by
      rw [json_pure_items, Bool.and_eq_true] at h
      simp only [json_canon_items, pith_struct_eq_items, Bool.and_eq_true]
      exact ⟨pith_struct_eq_canon v h.1, pith_struct_eq_canon_items rest h.2⟩

theorem pith_struct_eq_canon_slots : ∀ l : List PithSlot, json_pure_slots l = true →
    pith_struct_eq_slots l (json_canon_slots l) = true
  | [], _ => rfl
  | .mk nm bs be (some c) :: rest, h => by
      rw [json_pure_slots, Bool.and_eq_true, Bool.and_eq_true] at h
      simp only [json_canon_slots, pith_struct_eq_slots, Bool.and_eq_true]
      exact ⟨⟨by simp, pith_struct_eq_canon c h.1.2⟩, pith_struct_eq_canon_slots rest h.2⟩
  | .mk nm bs be none :: rest, h => by
      rw [json_pure_slots] at h
      exact absurd h (by simp)

end

theorem json_fuel_value_pos (v : PithValue) : 1 ≤ json_fuel_value v := by
  rw [json_fuel_value.eq_def]
  split <;> omega

theorem json_is_digit_not_space (c : Char) (h : json_is_digit c = true) :
    json_is_space c = false := by
  by_contra hs
  rw [Bool.not_eq_false, json_is_space] at hs
  simp only [Bool.or_eq_true, decide_eq_true_eq] at hs
  rcases hs with ((((e | e) | e) | e) | e) | e <;> (subst e; exact absurd h (by decide))

theorem json_skip_ws_cons (c : Char) (t : CStr) (h : json_is_space c = false) :
    json_skip_ws (c :: t) = c :: t := by
  rw [json_skip_ws, if_neg (by rw [h]; exact Bool.false_ne_true)]

theorem json_nat_digits_head (m : Nat) :
    ∃ c t, json_nat_digits m = c :: t ∧ json_is_digit c = true := by
  match h : json_nat_digits m with
  | [] => exact absurd h (json_nat_digits_ne_nil m)
  | c :: t =>
      exact ⟨c, t, rfl, json_nat_digits_all_digit m c (h ▸ List.mem_cons_self _ _)⟩

theorem json_is_digit_ne_brackets (c : Char) (h : json_is_digit c = true) :
    c ≠ ']' ∧ c ≠ '}' := by
  constructor <;> (intro e; subst e; exact absurd h (by decide))

/-- Every serialized pure value begins with a non-space character that
closes neither an array nor an object. -/
theorem json_serialize_head (v : PithValue) (hv : json_pure_value v = true) :
    ∃ c t, json_serialize_value v = c :: t ∧ json_is_space c = false
      ∧ c ≠ ']' ∧ c ≠ '}' := by
  cases v with
  | nil => refine ⟨'n', _, rfl, ?_, ?_, ?_⟩ <;> decide
  | bool b =>
      cases b
      · refine ⟨'f', _, rfl, ?_, ?_, ?_⟩ <;> decide
      · refine ⟨'t', _, rfl, ?_, ?_, ?_⟩ <;> decide
  | num n =>
      by_cases hn : n < 0
      · have hs : json_serialize_value (.num n) = '-' :: json_nat_digits n.natAbs := by
          simp only [json_serialize_value, json_format_g, if_pos hn]
        exact ⟨'-', _, hs, by decide, by decide, by decide⟩
      · obtain ⟨c, t, h1, h2⟩ := json_nat_digits_head n.natAbs
        have hs : json_serialize_value (.num n) = c :: t := by
          simp only [json_serialize_value, json_format_g, if_neg hn, h1]
        exact ⟨c, t, hs, json_is_digit_not_space c h2,
          (json_is_digit_ne_brackets c h2).1, (json_is_digit_ne_brackets c h2).2⟩
  | str s => exact ⟨'"', _, rfl, by decide, by decide, by decide⟩
  | arr items => exact ⟨'[', _, rfl, by decide, by decide, by decide⟩
  | dict d =>
      obtain ⟨n, p, slots⟩ := d
      exact ⟨'{', _, rfl, by decide, by decide, by decide⟩
  | map entries =>
      rw [show json_pure_value (.map entries) = false from rfl] at hv
      exact absurd hv Bool.false_ne_true
  | block bs be =>
      rw [show json_pure_value (.block bs be) = false from rfl] at hv
      exact absurd hv Bool.false_ne_true
  | view i =>
      rw [show json_pure_value (.view i) = false from rfl] at hv
      exact absurd hv Bool.false_ne_true
  | gapbuf g =>
      rw [show json_pure_value (.gapbuf g) = false from rfl] at hv
      exact absurd hv Bool.false_ne_true
  | signal i =>
      rw [show json_pure_value (.signal i) = false from rfl] at hv
      exact absurd hv Bool.false_ne_true

/-- Dispatch of `json_parse_value` on a digit-headed input. -/
theorem json_parse_value_digit (fuel : Nat) (c0 : Char) (t0 : CStr)
    (hd : json_is_digit c0 = true) :
    json_parse_value (fuel + 1) (c0 :: t0) = some (json_parse_number (c0 :: t0)) := by
  rw [json_parse_value, json_skip_ws_cons _ _ (json_is_digit_not_space c0 hd)]
  have hq : c0 ≠ '"' := fun e => by subst e; exact absurd hd (by decide)
  have hlb : c0 ≠ '[' := fun e => by subst e; exact absurd hd (by decide)
  have hob : c0 ≠ '{' := fun e => by subst e; exact absurd hd (by decide)
  split
  · rename_i heq
    rw [List.cons.injEq] at heq
    exact absurd heq.1 hq
  · rename_i heq
    rw [List.cons.injEq] at heq
    exact absurd heq.1 hlb
  · rename_i heq
    rw [List.cons.injEq] at heq
    exact absurd heq.1 hob
  · rename_i c r heq
    rw [List.cons.injEq] at heq
    obtain ⟨e1, e2⟩ := heq
    subst e1
    subst e2
    rw [if_pos (by rw [hd]; simp)]
  · rename_i heq
    exact absurd heq (by simp)

/-- Dispatch of `json_parse_array` on a non-`]` head. -/
theorem json_parse_array_nonempty (fuel : Nat) (c : Char) (r : CStr)
    (hsp : json_is_space c = false) (hc : c ≠ ']') :
    json_parse_array (fuel + 1) (c :: r)
      = (json_parse_items fuel (c :: r)).map (fun p => (.arr p.1, p.2)) := by
  rw [json_parse_array, json_skip_ws_cons _ _ hsp]
  split
  · rename_i heq
    rw [List.cons.injEq] at heq
    exact absurd heq.1 hc
  · rfl

/-- Dispatch of `json_parse_object` on a non-`}` head. -/
theorem json_parse_object_nonempty (fuel : Nat) (c : Char) (r : CStr)
    (hsp : json_is_space c = false) (hc : c ≠ '}') :
    json_parse_object (fuel + 1) (c :: r)
      = json_parse_entries fuel (c :: r) (.mk none none []) := by
  rw [json_parse_object, json_skip_ws_cons _ _ hsp]
  split
  · rename_i heq
    rw [List.cons.injEq] at heq
    exact absurd heq.1 hc
  · rfl

/-- `pith_dict_set_value` with a fresh key appends a cached slot. -/
theorem slots_set_value_not_mem (l : List PithSlot) (k : CStr) (v : PithValue)
    (h : ∀ s ∈ l, s.name ≠ k) :
    pith_slots_set_value l k v = l ++ [.mk k 0 0 (some v)] := by
  induction l with
  | nil => rfl
  | cons s rest ih =>
      rw [pith_slots_set_value, if_neg (h s (List.mem_cons_self _ _)),
        ih (fun t ht => h t (List.mem_cons_of_mem _ ht)), List.cons_append]

theorem contains_false_not_mem (l : List CStr) (a : CStr)
    (h : l.contains a = false) : a ∉ l := by
  intro hm
  have h2 : l.contains a = true := List.elem_eq_true_of_mem hm
  rw [h2] at h
  exact absurd h (by simp)

theorem slot_names_nodup_cons (s : PithSlot) (rest : List PithSlot)
    (h : slot_names_nodup (s :: rest) = true) :
    (∀ t ∈ rest, t.name ≠ s.name) ∧ slot_names_nodup rest = true := by
  rw [slot_names_nodup, Bool.and_eq_true, Bool.not_eq_true'] at h
  refine ⟨fun t ht he => ?_, h.2⟩
  exact contains_false_not_mem _ _ h.1 (he ▸ List.mem_map_of_mem PithSlot.name ht)

theorem json_serialize_slots_false_cons (nm : CStr) (bs be : Nat) (c : PithValue)
    (rest : List PithSlot) :
    json_serialize_slots (.mk nm bs be (some c) :: rest) false
      = ',' :: json_serialize_slots (.mk nm bs be (some c) :: rest) true := by
  rw [json_serialize_slots, json_serialize_slots]
  rfl

theorem json_serialize_slots_true_cons (nm : CStr) (bs be : Nat) (c : PithValue)
    (rest : List PithSlot) :
    json_serialize_slots (.mk nm bs be (some c) :: rest) true
      = json_serialize_string nm ++ ':' :: json_serialize_value c
          ++ json_serialize_slots rest false := by
  rw [json_serialize_slots]
  rfl

mutual

theorem json_rt_value : ∀ (v : PithValue) (fuel : Nat) (rest : CStr),
    json_pure_value v = true → json_fuel_value v ≤ fuel → json_num_delim rest = true →
    json_parse_value fuel (json_serialize_value v ++ rest) = some (json_canon v, rest)
  | .nil, fuel, rest, _, hf, _ => by
      rw [show json_fuel_value .nil = 1 from rfl] at hf
      match fuel, hf with
      | f + 1, _ => rfl
  | .bool true, fuel, rest, _, hf, _ => by
      rw [show json_fuel_value (.bool true) = 1 from rfl] at hf
      match fuel, hf with
      | f + 1, _ => rfl
  | .bool false, fuel, rest, _, hf, _ => by
      rw [show json_fuel_value (.bool false) = 1 from rfl] at hf
      match fuel, hf with
      | f + 1, _ => rfl
  | .num n, fuel, rest, _, hf, hrest => by
      rw [show json_fuel_value (.num n) = 1 from rfl] at hf
      match fuel, hf with
      | f + 1, _ =>
        by_cases hn : n < 0
        · have harg : json_serialize_value (.num n) ++ rest
              = '-' :: (json_nat_digits n.natAbs ++ rest) := by
            simp only [json_serialize_value, json_format_g, if_pos hn, List.cons_append]
          rw [harg,
            show json_parse_value (f + 1) ('-' :: (json_nat_digits n.natAbs ++ rest))
              = some (json_parse_number ('-' :: (json_nat_digits n.natAbs ++ rest))) from rfl,
            show '-' :: (json_nat_digits n.natAbs ++ rest) = json_format_g n ++ rest from by
              simp only [json_format_g, if_pos hn, List.cons_append],
            json_parse_number_format_g n rest hrest]
          rfl
        · obtain ⟨c0, t0, h0, hd0⟩ := json_nat_digits_head n.natAbs
          have harg : json_serialize_value (.num n) ++ rest = c0 :: (t0 ++ rest) := by
            simp only [json_serialize_value, json_format_g, if_neg hn, h0, List.cons_append]
          rw [harg, json_parse_value_digit f c0 _ hd0,
            show c0 :: (t0 ++ rest) = json_format_g n ++ rest from by
              simp only [json_format_g, if_neg hn, h0, List.cons_append],
            json_parse_number_format_g n rest hrest]
          rfl
  | .str s, fuel, rest, hp, hf, _ => by
      rw [show json_fuel_value (.str s) = 1 from rfl] at hf
      match fuel, hf with
      | f + 1, _ =>
        have harg : json_serialize_value (.str s) ++ rest
            = '"' :: (json_escape_chars s ++ ('"' :: rest)) := by
          simp only [json_serialize_value, json_serialize_string, List.cons_append,
            List.append_assoc, List.singleton_append, List.nil_append]
        rw [harg,
          show json_parse_value (f + 1) ('"' :: (json_escape_chars s ++ ('"' :: rest)))
            = some (.str (json_parse_string_loop (json_escape_chars s ++ ('"' :: rest))).1,
                (json_parse_string_loop (json_escape_chars s ++ ('"' :: rest))).2) from rfl,
          json_escape_chars_rt s rest (by rw [json_pure_value] at hp; exact hp)]
        rfl
  | .arr [], fuel, rest, _, hf, _ => by
      rw [json_fuel_value] at hf
      match fuel, hf with
      | f + 2, _ => rfl
      | 0, hf => exact absurd hf (by omega)
      | 1, hf => exact absurd hf (by omega)
  | .arr (e :: es), fuel, rest, hp, hf, _ => by
      rw [json_fuel_value] at hf
      match fuel, hf with
      | 0, hf => exact absurd hf (by omega)
      | 1, hf => exact absurd hf (by omega)
      | f + 2, hf =>
        rw [json_pure_value] at hp
        obtain ⟨c0, t0, h0, hsp0, hnb0, hnc0⟩ := json_serialize_head e
          (by rw [json_pure_items, Bool.and_eq_true] at hp; exact hp.1)
        have hitems : ∃ R, json_serialize_items (e :: es) = json_serialize_value e ++ R := by
          cases es with
          | nil => exact ⟨[], by rw [json_serialize_items, List.append_nil]⟩
          | cons x xs => exact ⟨',' :: json_serialize_items (x :: xs), rfl⟩
        obtain ⟨R, hR⟩ := hitems
        have hhead : json_serialize_items (e :: es) ++ ']' :: rest
            = c0 :: (t0 ++ R ++ ']' :: rest) := by
          rw [hR, h0]
          simp [List.append_assoc]
        have harg : json_serialize_value (.arr (e :: es)) ++ rest
            = '[' :: (json_serialize_items (e :: es) ++ ']' :: rest) := by
          simp only [json_serialize_value, List.cons_append, List.append_assoc,
            List.singleton_append, List.nil_append]
        rw [harg,
          show json_parse_value (f + 2) ('[' :: (json_serialize_items (e :: es) ++ ']' :: rest))
            = json_parse_array (f + 1) (json_serialize_items (e :: es) ++ ']' :: rest) from rfl,
          hhead, json_parse_array_nonempty f c0 _ hsp0 hnb0, ← hhead,
          json_rt_items e es f rest (by rw [json_pure_items] at hp; exact hp) (by omega)]
        rw [json_canon]
        rfl
  | .dict (.mk dn dp []), fuel, rest, _, hf, _ => by
      rw [json_fuel_value] at hf
      match fuel, hf with
      | f + 2, _ => rfl
      | 0, hf => exact absurd hf (by omega)
      | 1, hf => exact absurd hf (by omega)
  | .dict (.mk dn dp (.mk nm bs be none :: srest)), fuel, rest, hp, _, _ => by
      rw [json_pure_value, json_pure_dict, json_pure_slots] at hp
      exact absurd hp (by simp)
  | .dict (.mk dn dp (.mk nm bs be (some c) :: srest)), fuel, rest, hp, hf, _ => by
      rw [json_fuel_value] at hf
      match fuel, hf with
      | 0, hf => exact absurd hf (by omega)
      | 1, hf => exact absurd hf (by omega)
      | f + 2, hf =>
        rw [json_pure_value, json_pure_dict, Bool.and_eq_true] at hp
        have harg : json_serialize_value (.dict (.mk dn dp (.mk nm bs be (some c) :: srest))) ++ rest
            = '{' :: (json_serialize_slots (.mk nm bs be (some c) :: srest) true ++ '}' :: rest) := by
          simp only [json_serialize_value, json_serialize_dict, List.cons_append,
            List.append_assoc, List.singleton_append, List.nil_append]
        have hheadk : json_serialize_slots (.mk nm bs be (some c) :: srest) true ++ '}' :: rest
            = '"' :: (json_escape_chars nm ++ ('"' :: (':' :: (json_serialize_value c
                ++ (json_serialize_slots srest false ++ '}' :: rest))))) := by
          rw [json_serialize_slots_true_cons, json_serialize_string]
          simp [List.append_assoc]
        rw [harg,
          show json_parse_value (f + 2)
              ('{' :: (json_serialize_slots (.mk nm bs be (some c) :: srest) true ++ '}' :: rest))
            = json_parse_object (f + 1)
                (json_serialize_slots (.mk nm bs be (some c) :: srest) true ++ '}' :: rest) from rfl,
          hheadk, json_parse_object_nonempty f '"' _ (by decide) (by decide), ← hheadk,
          json_rt_entries (.mk nm bs be (some c)) srest none none [] f rest
            hp.1 hp.2 (by intro s hs t ht; exact absurd ht (List.not_mem_nil t)) (by omega)]
        rw [json_canon]
        rfl

theorem json_rt_items : ∀ (e : PithValue) (es : List PithValue) (fuel : Nat) (rest : CStr),
    json_pure_items (e :: es) = true → json_fuel_items (e :: es) ≤ fuel →
    json_parse_items fuel (json_serialize_items (e :: es) ++ ']' :: rest)
      = some (json_canon_items (e :: es), rest)
  | e, [], fuel, rest, hp, hf => by
      rw [json_fuel_items] at hf
      match fuel, hf with
      | 0, hf => exact absurd hf (by omega)
      | f + 1, hf =>
        rw [json_pure_items, Bool.and_eq_true] at hp
        obtain ⟨c0, t0, h0, hsp0, _, _⟩ := json_serialize_head e hp.1
        have harg : json_serialize_items (e :: []) ++ ']' :: rest
            = json_serialize_value e ++ ']' :: rest := by
          rw [json_serialize_items]
        rw [json_parse_items, harg]
        have hws : json_skip_ws (json_serialize_value e ++ ']' :: rest)
            = json_serialize_value e ++ ']' :: rest := by
          rw [h0, List.cons_append, json_skip_ws_cons _ _ hsp0]
        have hval := json_rt_value e f (']' :: rest) hp.1 (by omega) rfl
        have hws2 : json_skip_ws (']' :: rest) = ']' :: rest :=
          json_skip_ws_cons _ _ (by decide)
        simp only [hws, hval, hws2, json_canon_items]
  | e, x :: xs, fuel, rest, hp, hf => by
      rw [json_fuel_items] at hf
      match fuel, hf with
      | 0, hf => exact absurd hf (by omega)
      | f + 1, hf =>
        rw [json_pure_items, Bool.and_eq_true] at hp
        obtain ⟨c0, t0, h0, hsp0, _, _⟩ := json_serialize_head e hp.1
        have harg : json_serialize_items (e :: x :: xs) ++ ']' :: rest
            = json_serialize_value e
                ++ (',' :: (json_serialize_items (x :: xs) ++ ']' :: rest)) := by
          rw [json_serialize_items.eq_def]
          simp [List.append_assoc]
        rw [json_parse_items, harg]
        have hws : json_skip_ws (json_serialize_value e
            ++ (',' :: (json_serialize_items (x :: xs) ++ ']' :: rest)))
            = json_serialize_value e
                ++ (',' :: (json_serialize_items (x :: xs) ++ ']' :: rest)) := by
          rw [h0, List.cons_append, json_skip_ws_cons _ _ hsp0]
        have hval := json_rt_value e f
          (',' :: (json_serialize_items (x :: xs) ++ ']' :: rest)) hp.1 (by omega) rfl
        have hws2 : json_skip_ws (',' :: (json_serialize_items (x :: xs) ++ ']' :: rest))
            = ',' :: (json_serialize_items (x :: xs) ++ ']' :: rest) :=
          json_skip_ws_cons _ _ (by decide)
        have hrec := json_rt_items x xs f rest hp.2 (by omega)
        simp only [hws, hval, hws2, hrec, Option.map_some', json_canon_items]

theorem json_rt_entries : ∀ (s0 : PithSlot) (srest : List PithSlot)
    (accN : Option CStr) (accP : Option PithDict) (accS : List PithSlot)
    (fuel : Nat) (rest : CStr),
    json_pure_slots (s0 :: srest) = true → slot_names_nodup (s0 :: srest) = true →
    (∀ s ∈ (s0 :: srest), ∀ t ∈ accS, t.name ≠ s.name) →
    json_fuel_slots (s0 :: srest) ≤ fuel →
    json_parse_entries fuel (json_serialize_slots (s0 :: srest) true ++ '}' :: rest)
        (.mk accN accP accS)
      = some (.dict (.mk accN accP (accS ++ json_canon_slots (s0 :: srest))), rest)
  | .mk nm bs be none, srest, accN, accP, accS, fuel, rest, hp, _, _, _ => by
      rw [json_pure_slots] at hp
      exact absurd hp (by simp)
  | .mk nm bs be (some c), srest, accN, accP, accS, fuel, rest, hp, hnd, hdisj, hf => by
      rw [json_fuel_slots] at hf
      match fuel, hf with
      | 0, hf => exact absurd hf (by omega)
      | f + 1, hf =>
        rw [json_pure_slots, Bool.and_eq_true, Bool.and_eq_true] at hp
        obtain ⟨hfresh, hndrest⟩ := slot_names_nodup_cons _ _ hnd
        have hargs : json_serialize_slots (.mk nm bs be (some c) :: srest) true ++ '}' :: rest
            = '"' :: (json_escape_chars nm ++ ('"' :: (':' :: (json_serialize_value c
                ++ (json_serialize_slots srest false ++ '}' :: rest))))) := by
          rw [json_serialize_slots_true_cons, json_serialize_string]
          simp [List.append_assoc]
        have hws_q : ∀ t : CStr, json_skip_ws ('"' :: t) = '"' :: t :=
          fun t => json_skip_ws_cons _ _ (by decide)
        have hws_colon : ∀ t : CStr, json_skip_ws (':' :: t) = ':' :: t :=
          fun t => json_skip_ws_cons _ _ (by decide)
        have hws_comma : ∀ t : CStr, json_skip_ws (',' :: t) = ',' :: t :=
          fun t => json_skip_ws_cons _ _ (by decide)
        have hws_brace : ∀ t : CStr, json_skip_ws ('}' :: t) = '}' :: t :=
          fun t => json_skip_ws_cons _ _ (by decide)
        have hstr : ∀ t : CStr,
            json_parse_string ('"' :: (json_escape_chars nm ++ '"' :: t)) = some (nm, t) :=
          fun t => by
            rw [show json_parse_string ('"' :: (json_escape_chars nm ++ '"' :: t))
                = some (json_parse_string_loop (json_escape_chars nm ++ '"' :: t)) from rfl,
              json_escape_chars_rt nm t hp.1.1]
        have hdelim : json_num_delim (json_serialize_slots srest false ++ '}' :: rest) = true := by
          cases srest with
          | nil => rfl
          | cons s1 xs =>
              obtain ⟨nm1, bs1, be1, c1o⟩ := s1
              cases c1o with
              | none =>
                  have h2 := hp.2
                  rw [json_pure_slots] at h2
                  exact absurd h2 (by simp)
              | some c1 =>
                  rw [json_serialize_slots_false_cons]
                  rfl
        have hval := json_rt_value c f
          (json_serialize_slots srest false ++ '}' :: rest) hp.1.2 (by omega) hdelim
        have hset : pith_dict_set_value (.mk accN accP accS) nm (json_canon c)
            = .mk accN accP (accS ++ [.mk nm 0 0 (some (json_canon c))]) := by
          rw [pith_dict_set_value]
          rw [show (PithDict.mk accN accP accS).slots = accS from rfl,
            show (PithDict.mk accN accP accS).name = accN from rfl,
            show (PithDict.mk accN accP accS).parent = accP from rfl,
            slots_set_value_not_mem accS nm (json_canon c)
              (fun t ht => hdisj (.mk nm bs be (some c)) (List.mem_cons_self _ _) t ht)]
        rw [json_parse_entries, hargs]
        cases srest with
        | nil =>
            simp only [show json_serialize_slots ([] : List PithSlot) false = [] from rfl,
              List.nil_append] at hval ⊢
            simp only [hws_q, hstr, hws_colon, hval, hset, hws_brace, json_canon_slots]
        | cons s1 xs =>
            obtain ⟨nm1, bs1, be1, c1o⟩ := s1
            cases c1o with
            | none =>
                have h2 := hp.2
                rw [json_pure_slots] at h2
                exact absurd h2 (by simp)
            | some c1 =>
                have hrec := json_rt_entries (.mk nm1 bs1 be1 (some c1)) xs accN accP
                  (accS ++ [.mk nm 0 0 (some (json_canon c))]) f rest hp.2 hndrest
                  (by
                    intro s hs t ht
                    rcases List.mem_append.mp ht with ht2 | ht2
                    · exact hdisj s (List.mem_cons_of_mem _ hs) t ht2
                    · rw [List.mem_singleton] at ht2
                      subst ht2
                      show ¬((PithSlot.mk nm 0 0 (some (json_canon c))).name = s.name)
                      intro he
                      exact hfresh s hs (by
                        rw [show (PithSlot.mk nm 0 0 (some (json_canon c))).name = nm from rfl] at he
                        rw [show (PithSlot.mk nm bs be (some c)).name = nm from rfl, ← he]))
                  (by omega)
                simp only [json_serialize_slots_false_cons, List.cons_append] at hval ⊢
                simp only [hws_q, hstr, hws_colon, hval, hset,
                  json_serialize_slots_false_cons, List.cons_append, hws_comma, hrec,
                  json_canon_slots, List.append_assoc, List.singleton_append,
                  List.nil_append]

end

/-! ## Round trip: the parser fuel `2*length + 2` covers every
serialized pure value -/

theorem json_format_g_length_pos (n : Int) : 1 ≤ (json_format_g n).length := by
  rw [json_format_g]
  split
  · simp
  · exact List.length_pos.mpr (json_nat_digits_ne_nil _)

mutual

theorem json_fuel_le_value : ∀ v : PithValue,
    json_fuel_value v + 1 ≤ 2 * (json_serialize_value v).length
  | .nil => by decide
  | .bool true => by decide
  | .bool false => by decide
  | .num n => by
      have h := json_format_g_length_pos n
      rw [show json_fuel_value (.num n) = 1 from rfl,
        show json_serialize_value (.num n) = json_format_g n from rfl]
      omega
  | .str s => by
      rw [show json_fuel_value (.str s) = 1 from rfl,
        show json_serialize_value (.str s) = json_serialize_string s from rfl,
        json_serialize_string]
      simp only [List.length_cons, List.length_append]
      omega
  | .arr items => by
      have h := json_fuel_le_items items
      rw [show json_fuel_value (.arr items) = 2 + json_fuel_items items from rfl,
        show json_serialize_value (.arr items)
          = '[' :: json_serialize_items items ++ [']'] from rfl]
      simp only [List.length_cons, List.length_append]
      omega
  | .map entries => by
      rw [show json_fuel_value (.map entries) = 1 from rfl,
        show json_serialize_value (.map entries) = cstr "null" from rfl]
      decide
  | .block bs be => by
      rw [show json_fuel_value (.block bs be) = 1 from rfl,
        show json_serialize_value (.block bs be) = cstr "null" from rfl]
      decide
  | .view i => by
      rw [show json_fuel_value (.view i) = 1 from rfl,
        show json_serialize_value (.view i) = cstr "null" from rfl]
      decide
  | .dict (.mk dn dp slots) => by
      have h := json_fuel_le_slots slots true
      rw [show json_fuel_value (.dict (.mk dn dp slots)) = 2 + json_fuel_slots slots from rfl,
        show json_serialize_value (.dict (.mk dn dp slots))
          = '{' :: json_serialize_slots slots true ++ ['}'] from rfl]
      simp only [List.length_cons, List.length_append]
      omega
  | .gapbuf g => by
      rw [show json_fuel_value (.gapbuf g) = 1 from rfl,
        show json_serialize_value (.gapbuf g) = cstr "null" from rfl]
      decide
  | .signal i => by
      rw [show json_fuel_value (.signal i) = 1 from rfl,
        show json_serialize_value (.signal i) = cstr "null" from rfl]
      decide

theorem json_fuel_le_items : ∀ l : List PithValue,
    json_fuel_items l ≤ 2 * (json_serialize_items l).length + 1
  | [] => by decide
  | [v] => by
      have h := json_fuel_le_value v
      rw [show json_fuel_items [v] = 1 + json_fuel_value v + json_fuel_items [] from rfl,
        show json_fuel_items ([] : List PithValue) = 1 from rfl,
        show json_serialize_items [v] = json_serialize_value v from rfl]
      omega
  | v :: x :: rest => by
      have h1 := json_fuel_le_value v
      have h2 := json_fuel_le_items (x :: rest)
      rw [show json_fuel_items (v :: x :: rest)
          = 1 + json_fuel_value v + json_fuel_items (x :: rest) from rfl,
        show json_serialize_items (v :: x :: rest)
          = json_serialize_value v ++ ',' :: json_serialize_items (x :: rest) from rfl]
      simp only [List.length_append, List.length_cons]
      omega

theorem json_fuel_le_slots : ∀ (l : List PithSlot) (first : Bool),
    json_fuel_slots l ≤ 2 * (json_serialize_slots l first).length + 1
  | [], _ => by
      rw [show json_fuel_slots [] = 1 from rfl]
      simp [json_serialize_slots]
  | .mk nm bs be (some c) :: rest, true => by
      have h1 := json_fuel_le_value c
      have h2 := json_fuel_le_slots rest false
      rw [show json_fuel_slots (.mk nm bs be (some c) :: rest)
          = 1 + json_fuel_value c + json_fuel_slots rest from rfl,
        json_serialize_slots_true_cons, json_serialize_string]
      simp only [List.length_append, List.length_cons]
      omega
  | .mk nm bs be (some c) :: rest, false => by
      have h1 := json_fuel_le_value c
      have h2 := json_fuel_le_slots rest false
      rw [show json_fuel_slots (.mk nm bs be (some c) :: rest)
          = 1 + json_fuel_value c + json_fuel_slots rest from rfl,
        json_serialize_slots_false_cons, json_serialize_slots_true_cons,
        json_serialize_string]
      simp only [List.length_append, List.length_cons]
      omega
  | .mk nm bs be none :: rest, first => by
      rw [show json_fuel_slots (.mk nm bs be none :: rest) = json_fuel_slots rest from rfl,
        show json_serialize_slots (.mk nm bs be none :: rest) first
          = json_serialize_slots rest first from rfl]
      exact json_fuel_le_slots rest first

end

/-- `builtin_parse_json` applied to `builtin_to_json` output: parsing a
serialized pure dictionary rebuilds its canonical form. -/
theorem pith_parse_json_serialize_dict (d : PithDict)
    (hp : json_pure_value (.dict d) = true) :
    pith_parse_json (json_serialize_dict d) = some (json_canon (.dict d)) := by
  obtain ⟨dn, dp, slots⟩ := d
  cases slots with
  | nil => rfl
  | cons s0 srest =>
      obtain ⟨nm, bs, be, c0⟩ := s0
      cases c0 with
      | none =>
          rw [json_pure_value, json_pure_dict, json_pure_slots, Bool.and_eq_true] at hp
          exact absurd hp.1 (by simp)
      | some c =>
          rw [json_pure_value, json_pure_dict, Bool.and_eq_true] at hp
          have hfuel := json_fuel_le_slots (.mk nm bs be (some c) :: srest) true
          have hstep : pith_parse_json
                (json_serialize_dict (.mk dn dp (.mk nm bs be (some c) :: srest)))
              = (json_parse_object
                  (2 * (json_serialize_dict
                    (.mk dn dp (.mk nm bs be (some c) :: srest))).length + 2)
                  (json_serialize_slots (.mk nm bs be (some c) :: srest) true
                    ++ ['}'])).map Prod.fst := rfl
          rw [hstep]
          have hlen : (json_serialize_dict (.mk dn dp (.mk nm bs be (some c) :: srest))).length
              = (json_serialize_slots (.mk nm bs be (some c) :: srest) true).length + 2 := by
            rw [show json_serialize_dict (.mk dn dp (.mk nm bs be (some c) :: srest))
                = '{' :: json_serialize_slots (.mk nm bs be (some c) :: srest) true
                    ++ ['}'] from rfl]
            simp [List.length_append]
          obtain ⟨F, hF⟩ : ∃ F,
              2 * (json_serialize_dict (.mk dn dp (.mk nm bs be (some c) :: srest))).length + 2
                = F + 1 :=
            ⟨2 * (json_serialize_dict (.mk dn dp (.mk nm bs be (some c) :: srest))).length + 1,
              rfl⟩
          rw [hF]
          have hheadk : json_serialize_slots (.mk nm bs be (some c) :: srest) true ++ ['}']
              = '"' :: (json_escape_chars nm ++ ('"' :: (':' :: (json_serialize_value c
                  ++ (json_serialize_slots srest false ++ '}' :: []))))) := by
            rw [json_serialize_slots_true_cons, json_serialize_string]
            simp [List.append_assoc]
          rw [hheadk, json_parse_object_nonempty F '"' _ (by decide) (by decide), ← hheadk]
          rw [json_rt_entries (.mk nm bs be (some c)) srest none none [] F []
            hp.1 hp.2 (by intro s hs t ht; exact absurd ht (List.not_mem_nil t))
            (by omega)]
          rw [json_canon]
          rfl

theorem json_parse_string_loop_u (rest : CStr) :
    json_parse_string_loop ('\\' :: 'u' :: rest)
      = ('?' :: (json_parse_string_loop (rest.drop 4)).1,
         (json_parse_string_loop (rest.drop 4)).2) := by
  rw [json_parse_string_loop, if_pos rfl]

/-- C2, counterexample: `c2_control_dict` is a pure-data dictionary (no
Block or View slots), yet `parse-json` of its `to-json` text yields a
dictionary that is not structurally equal to it — the serializer emits
the control character as `\u0001` and the parser rebuilds every `\u`
escape as `'?'`. -/
theorem C2_roundtrip_counterexample :
    ∃ w, (pith_to_json (.dict c2_control_dict)).bind pith_parse_json = some w
      ∧ pith_struct_eq (.dict c2_control_dict) w = false := by
  refine ⟨.dict (.mk none none [.mk (cstr "k") 0 0 (some (.str ('?' :: [])))]), ?_, by rfl⟩
  have hkey : ∀ t : CStr, json_parse_string ('"' :: 'k' :: '"' :: t) = some ('k' :: [], t) := by
    intro t
    rw [show json_parse_string ('"' :: 'k' :: '"' :: t)
        = some (json_parse_string_loop ('k' :: '"' :: t)) from rfl,
      json_parse_string_loop_other 'k' _ (by decide) (by decide),
      json_parse_string_loop_quote]
  have hvalstr : ∀ (f : Nat) (t : CStr),
      json_parse_value (f + 1) ('"' :: '\\' :: 'u' :: '0' :: '0' :: '0' :: '1' :: '"' :: t)
        = some (.str ('?' :: []), t) := by
    intro f t
    rw [show json_parse_value (f + 1) ('"' :: '\\' :: 'u' :: '0' :: '0' :: '0' :: '1' :: '"' :: t)
        = some (.str (json_parse_string_loop
              ('\\' :: 'u' :: '0' :: '0' :: '0' :: '1' :: '"' :: t)).1,
            (json_parse_string_loop
              ('\\' :: 'u' :: '0' :: '0' :: '0' :: '1' :: '"' :: t)).2) from rfl,
      json_parse_string_loop_u,
      show (('0' :: '0' :: '0' :: '1' :: '"' :: t : CStr)).drop 4 = '"' :: t from rfl,
      json_parse_string_loop_quote]
  have hws_colon : ∀ t : CStr, json_skip_ws (':' :: t) = ':' :: t :=
    fun t => json_skip_ws_cons _ _ (by decide)
  have hws_q : ∀ t : CStr, json_skip_ws ('"' :: t) = '"' :: t :=
    fun t => json_skip_ws_cons _ _ (by decide)
  have hws_brace : ∀ t : CStr, json_skip_ws ('}' :: t) = '}' :: t :=
    fun t => json_skip_ws_cons _ _ (by decide)
  have hgen : ∀ f : Nat, json_parse_entries (f + 1 + 1)
      ('"' :: 'k' :: '"' :: ':' :: '"' :: '\\' :: 'u' :: '0' :: '0' :: '0' :: '1' :: '"' :: '}' :: [])
      (.mk none none [])
      = some (.dict (.mk none none [.mk ('k' :: []) 0 0 (some (.str ('?' :: [])))]), []) := by
    intro f
    rw [json_parse_entries]
    simp only [hws_q, hkey, hws_colon, hvalstr, hws_brace]
    rfl
  have hstep : pith_parse_json (json_serialize_dict c2_control_dict)
      = (json_parse_object 30
          ('"' :: 'k' :: '"' :: ':' :: '"' :: '\\' :: 'u' :: '0' :: '0' :: '0' :: '1' :: '"' :: '}' :: [])).map
          Prod.fst := rfl
  have hobj : json_parse_object 30
      ('"' :: 'k' :: '"' :: ':' :: '"' :: '\\' :: 'u' :: '0' :: '0' :: '0' :: '1' :: '"' :: '}' :: [])
      = json_parse_entries (27 + 1 + 1)
          ('"' :: 'k' :: '"' :: ':' :: '"' :: '\\' :: 'u' :: '0' :: '0' :: '0' :: '1' :: '"' :: '}' :: [])
          (.mk none none []) := rfl
  show pith_parse_json (json_serialize_dict c2_control_dict) = _
  rw [hstep, hobj, hgen 27]
  rfl

/-- C2, amended: for a dictionary whose cached data is pure in the
restricted sense `json_pure_value` — control-character-free strings,
numbers below the `%g` exact range `10^6`, every slot cached with
distinct names, no Block/View/Map/GapBuffer/Signal values —
`parse-json` of the `to-json` text succeeds and the result is
structurally equal to the input (same keys in the same order,
recursively equal values). -/
theorem C2_pure_roundtrip (d : PithDict)
    (hp : json_pure_value (.dict d) = true) :
    ∃ w, (pith_to_json (.dict d)).bind pith_parse_json = some w
      ∧ pith_struct_eq (.dict d) w = true := by
  refine ⟨json_canon (.dict d), ?_, pith_struct_eq_canon _ hp⟩
  exact pith_parse_json_serialize_dict d hp

/-- C2, witness: the amended round trip evaluated on a concrete
two-slot dictionary. -/
theorem C2_pure_roundtrip_witness :
    json_pure_value (.dict (.mk none none
        [.mk (cstr "k") 0 0 (some (.num 42)),
         .mk (cstr "s") 0 0 (some (.str (cstr "hi")))])) = true
    ∧ ∃ w, (pith_to_json (.dict (.mk none none
        [.mk (cstr "k") 0 0 (some (.num 42)),
         .mk (cstr "s") 0 0 (some (.str (cstr "hi")))]))).bind pith_parse_json = some w
      ∧ pith_struct_eq (.dict (.mk none none
        [.mk (cstr "k") 0 0 (some (.num 42)),
         .mk (cstr "s") 0 0 (some (.str (cstr "hi")))])) w = true :=
  ⟨by decide, C2_pure_roundtrip _ (by decide)⟩

/-- C4: `pith_value_equal` (the `=` builtin) is structural on the
primitive variants nil, bool, number and string, but on every complex
variant it returns `false` unconditionally — in particular it returns
`false` even when both operands are the very same dictionary, array or
gap buffer, where the claim (and the code's own comment `Reference
equality for complex types`) require `true` for identical references. -/
theorem C4_value_equal_reference_identity_fails :
    pith_value_equal .nil .nil = true
    ∧ (∀ a b : Bool, pith_value_equal (.bool a) (.bool b) = (a == b))
    ∧ (∀ m n : Int, pith_value_equal (.num m) (.num n) = (m == n))
    ∧ (∀ s t : CStr, pith_value_equal (.str s) (.str t) = (s == t))
    ∧ (∀ d : PithDict, pith_value_equal (.dict d) (.dict d) = false)
    ∧ (∀ l : List PithValue, pith_value_equal (.arr l) (.arr l) = false)
    ∧ (∀ g : PithGapBuffer, pith_value_equal (.gapbuf g) (.gapbuf g) = false) :=
  ⟨rfl, fun _ _ => rfl, fun _ _ => rfl, fun _ _ => rfl,
    fun _ => rfl, fun _ => rfl, fun _ => rfl⟩

/-! ## C5: failure and the error slot -/

theorem pith_push_pair_fail {rt : PithRuntime} {v : PithValue} {rt' : PithRuntime}
    (h : pith_push rt v = (rt', false)) : rt'.has_error = true := by
  rw [pith_push] at h
  split at h
  · rw [Prod.mk.injEq] at h
    rw [← h.1]
    rfl
  · rw [Prod.mk.injEq] at h
    exact absurd h.2 (by simp)

theorem pith_error_pair {rt rt' : PithRuntime} {msg : CStr} {b : Bool}
    (h : (pith_error rt msg, b) = (rt', false)) : rt'.has_error = true := by
  rw [Prod.mk.injEq] at h
  rw [← h.1]
  rfl

theorem pith_stack_has_two {rt : PithRuntime} (hs : pith_stack_has rt 2 = true) :
    ∃ vb va rest, rt.stack = vb :: va :: rest := by
  rw [pith_stack_has, decide_eq_true_eq] at hs
  match hst : rt.stack, hs with
  | vb :: va :: rest, _ => exact ⟨vb, va, rest, rfl⟩

theorem pith_stack_has_one {rt : PithRuntime} (hs : pith_stack_has rt 1 = true) :
    ∃ v rest, rt.stack = v :: rest := by
  rw [pith_stack_has, decide_eq_true_eq] at hs
  match hst : rt.stack, hs with
  | v :: rest, _ => exact ⟨v, rest, rfl⟩

theorem pith_stack_has_three {rt : PithRuntime} (hs : pith_stack_has rt 3 = true) :
    ∃ vc vb va rest, rt.stack = vc :: vb :: va :: rest := by
  rw [pith_stack_has, decide_eq_true_eq] at hs
  match hst : rt.stack, hs with
  | vc :: vb :: va :: rest, _ => exact ⟨vc, vb, va, rest, rfl⟩

theorem pith_stack_has_lt {rt : PithRuntime} {n : Nat}
    (hs : pith_stack_has rt n = false) : rt.stack.length < n := by
  rw [pith_stack_has] at hs
  have := of_decide_eq_false hs
  omega

/-- C5, counterexample: `builtin_add` on an empty stack returns failure
through the `pith_stack_has` arity guard without touching the runtime —
`has_error` stays false and no message is formatted, so a failing
builtin does not always set the error slot. -/
theorem C5_arity_guard_counterexample :
    builtin_add c5_empty_rt = (c5_empty_rt, false)
    ∧ c5_empty_rt.has_error = false
    ∧ c5_empty_rt.error = [] :=
  ⟨rfl, rfl, rfl⟩

/-- C5, amended: when a modelled builtin returns failure, either the
error slot has been set (`pith_error` ran: type errors, stack
overflow in `pith_push`), or the failure came from the initial
`pith_stack_has` arity guard, which returns false with the runtime
unchanged and no error recorded. -/
theorem C5_builtin_failure_error_or_arity (rt : PithRuntime) :
    (∀ rt', builtin_dup rt = (rt', false) →
      rt'.has_error = true ∨ (rt.stack.length < 1 ∧ rt' = rt))
    ∧ (∀ rt', builtin_drop rt = (rt', false) →
      rt'.has_error = true ∨ (rt.stack.length < 1 ∧ rt' = rt))
    ∧ (∀ rt', builtin_swap rt = (rt', false) →
      rt'.has_error = true ∨ (rt.stack.length < 2 ∧ rt' = rt))
    ∧ (∀ rt', builtin_add rt = (rt', false) →
      rt'.has_error = true ∨ (rt.stack.length < 2 ∧ rt' = rt))
    ∧ (∀ rt', builtin_subtract rt = (rt', false) →
      rt'.has_error = true ∨ (rt.stack.length < 2 ∧ rt' = rt))
    ∧ (∀ rt', builtin_equal rt = (rt', false) →
      rt'.has_error = true ∨ (rt.stack.length < 2 ∧ rt' = rt))
    ∧ (∀ rt', builtin_map_get rt = (rt', false) →
      rt'.has_error = true ∨ (rt.stack.length < 2 ∧ rt' = rt))
    ∧ (∀ rt', builtin_map_set rt = (rt', false) →
      rt'.has_error = true ∨ (rt.stack.length < 3 ∧ rt' = rt))
    ∧ (∀ rt', builtin_map_keys rt = (rt', false) →
      rt'.has_error = true ∨ (rt.stack.length < 1 ∧ rt' = rt))
    ∧ (∀ rt', builtin_map_has rt = (rt', false) →
      rt'.has_error = true ∨ (rt.stack.length < 2 ∧ rt' = rt))
    ∧ (∀ rt', builtin_map_remove rt = (rt', false) →
      rt'.has_error = true ∨ (rt.stack.length < 2 ∧ rt' = rt))
    ∧ (∀ rt', builtin_map_merge rt = (rt', false) →
      rt'.has_error = true ∨ (rt.stack.length < 2 ∧ rt' = rt)) := by
  refine ⟨?_, ?_, ?_, ?_, ?_, ?_, ?_, ?_, ?_, ?_, ?_, ?_⟩
  · intro rt' h
    by_cases hs : pith_stack_has rt 1
    · obtain ⟨v, rest, hstack⟩ := pith_stack_has_one hs
      rw [builtin_dup, if_pos hs] at h
      rw [hstack] at h
      exact Or.inl (pith_push_pair_fail h)
    · rw [builtin_dup, if_neg hs] at h
      rw [Prod.mk.injEq] at h
      exact Or.inr ⟨pith_stack_has_lt (by simpa using hs), h.1.symm⟩
  · intro rt' h
    by_cases hs : pith_stack_has rt 1
    · rw [builtin_drop, if_pos hs] at h
      rw [Prod.mk.injEq] at h
      exact absurd h.2 (by simp)
    · rw [builtin_drop, if_neg hs] at h
      rw [Prod.mk.injEq] at h
      exact Or.inr ⟨pith_stack_has_lt (by simpa using hs), h.1.symm⟩
  · intro rt' h
    by_cases hs : pith_stack_has rt 2
    · rw [builtin_swap, if_pos hs] at h
      rw [Prod.mk.injEq] at h
      exact absurd h.2 (by simp)
    · rw [builtin_swap, if_neg hs] at h
      rw [Prod.mk.injEq] at h
      exact Or.inr ⟨pith_stack_has_lt (by simpa using hs), h.1.symm⟩
  · intro rt' h
    by_cases hs : pith_stack_has rt 2
    · obtain ⟨vb, va, rest, hstack⟩ := pith_stack_has_two hs
      rw [builtin_add, if_pos hs] at h
      simp only [pith_pop, hstack] at h
      split at h
      · exact Or.inl (pith_push_pair_fail h)
      · exact Or.inl (pith_push_pair_fail h)
      · exact Or.inl (pith_error_pair h)
    · rw [builtin_add, if_neg hs] at h
      rw [Prod.mk.injEq] at h
      exact Or.inr ⟨pith_stack_has_lt (by simpa using hs), h.1.symm⟩
  · intro rt' h
    by_cases hs : pith_stack_has rt 2
    · obtain ⟨vb, va, rest, hstack⟩ := pith_stack_has_two hs
      rw [builtin_subtract, if_pos hs] at h
      simp only [pith_pop, hstack] at h
      split at h
      · exact Or.inl (pith_push_pair_fail h)
      · exact Or.inl (pith_error_pair h)
    · rw [builtin_subtract, if_neg hs] at h
      rw [Prod.mk.injEq] at h
      exact Or.inr ⟨pith_stack_has_lt (by simpa using hs), h.1.symm⟩
  · intro rt' h
    by_cases hs : pith_stack_has rt 2
    · obtain ⟨vb, va, rest, hstack⟩ := pith_stack_has_two hs
      rw [builtin_equal, if_pos hs] at h
      simp only [pith_pop, hstack] at h
      exact Or.inl (pith_push_pair_fail h)
    · rw [builtin_equal, if_neg hs] at h
      rw [Prod.mk.injEq] at h
      exact Or.inr ⟨pith_stack_has_lt (by simpa using hs), h.1.symm⟩
  · intro rt' h
    by_cases hs : pith_stack_has rt 2
    · obtain ⟨vb, va, rest, hstack⟩ := pith_stack_has_two hs
      rw [builtin_map_get, if_pos hs] at h
      simp only [pith_pop, hstack] at h
      split at h
      · split at h
        · exact Or.inl (pith_push_pair_fail h)
        · exact Or.inl (pith_error_pair h)
      · exact Or.inl (pith_error_pair h)
    · rw [builtin_map_get, if_neg hs] at h
      rw [Prod.mk.injEq] at h
      exact Or.inr ⟨pith_stack_has_lt (by simpa using hs), h.1.symm⟩
  · intro rt' h
    by_cases hs : pith_stack_has rt 3
    · obtain ⟨vc, vb, va, rest, hstack⟩ := pith_stack_has_three hs
      rw [builtin_map_set, if_pos hs] at h
      simp only [pith_pop, hstack] at h
      split at h
      · split at h
        · exact Or.inl (pith_push_pair_fail h)
        · exact Or.inl (pith_error_pair h)
      · exact Or.inl (pith_error_pair h)
    · rw [builtin_map_set, if_neg hs] at h
      rw [Prod.mk.injEq] at h
      exact Or.inr ⟨pith_stack_has_lt (by simpa using hs), h.1.symm⟩
  · intro rt' h
    by_cases hs : pith_stack_has rt 1
    · obtain ⟨v, rest, hstack⟩ := pith_stack_has_one hs
      rw [builtin_map_keys, if_pos hs] at h
      simp only [pith_pop, hstack] at h
      split at h
      · exact Or.inl (pith_push_pair_fail h)
      · exact Or.inl (pith_error_pair h)
    · rw [builtin_map_keys, if_neg hs] at h
      rw [Prod.mk.injEq] at h
      exact Or.inr ⟨pith_stack_has_lt (by simpa using hs), h.1.symm⟩
  · intro rt' h
    by_cases hs : pith_stack_has rt 2
    · obtain ⟨vb, va, rest, hstack⟩ := pith_stack_has_two hs
      rw [builtin_map_has, if_pos hs] at h
      simp only [pith_pop, hstack] at h
      split at h
      · split at h
        · exact Or.inl (pith_push_pair_fail h)
        · exact Or.inl (pith_error_pair h)
      · exact Or.inl (pith_error_pair h)
    · rw [builtin_map_has, if_neg hs] at h
      rw [Prod.mk.injEq] at h
      exact Or.inr ⟨pith_stack_has_lt (by simpa using hs), h.1.symm⟩
  · intro rt' h
    by_cases hs : pith_stack_has rt 2
    · obtain ⟨vb, va, rest, hstack⟩ := pith_stack_has_two hs
      rw [builtin_map_remove, if_pos hs] at h
      simp only [pith_pop, hstack] at h
      split at h
      · split at h
        · exact Or.inl (pith_push_pair_fail h)
        · exact Or.inl (pith_error_pair h)
      · exact Or.inl (pith_error_pair h)
    · rw [builtin_map_remove, if_neg hs] at h
      rw [Prod.mk.injEq] at h
      exact Or.inr ⟨pith_stack_has_lt (by simpa using hs), h.1.symm⟩
  · intro rt' h
    by_cases hs : pith_stack_has rt 2
    · obtain ⟨vb, va, rest, hstack⟩ := pith_stack_has_two hs
      rw [builtin_map_merge, if_pos hs] at h
      simp only [pith_pop, hstack] at h
      split at h
      · exact Or.inl (pith_push_pair_fail h)
      · exact Or.inl (pith_error_pair h)
    · rw [builtin_map_merge, if_neg hs] at h
      rw [Prod.mk.injEq] at h
      exact Or.inr ⟨pith_stack_has_lt (by simpa using hs), h.1.symm⟩

/-- C5, witness: the amended law applied to `builtin_add` at a concrete
runtime whose two operands are nil (a type error, so the left disjunct
holds with the error slot set). -/
theorem C5_builtin_failure_error_or_arity_witness :
    (builtin_add c5_type_error_rt).1.has_error = true
      ∨ (c5_type_error_rt.stack.length < 2 ∧ (builtin_add c5_type_error_rt).1 = c5_type_error_rt) :=
  (C5_builtin_failure_error_or_arity c5_type_error_rt).2.2.2.1
    (builtin_add c5_type_error_rt).1 rfl

/-- C10: on a stack holding a string key over a dictionary, `get`
succeeds even when the key is absent or the found slot holds no cached
value (it pushes nil); `has` pushes exactly whether `pith_dict_lookup`
— local slots, then the whole parent chain — finds the key; `keys`
lists only the dictionary's own local slot names; and, as with
`c10_parent_dict`, `has` can be true for a key that `keys` does not
list. -/
theorem C10_map_get_has_keys (rt : PithRuntime) (d : PithDict) (k : CStr)
    (rest : List PithValue) (hstack : rt.stack = .str k :: .dict d :: rest)
    (hlen : rt.stack.length ≤ PITH_STACK_MAX) :
    ((pith_dict_lookup d k = none
        ∨ ∃ s, pith_dict_lookup d k = some s ∧ s.cached = none) →
      builtin_map_get rt = ({ rt with stack := .nil :: rest }, true))
    ∧ builtin_map_has rt
        = ({ rt with stack := .bool (pith_dict_lookup d k).isSome :: rest }, true)
    ∧ (∀ rt2 : PithRuntime, rt2.stack = .dict d :: rest →
        rt2.stack.length ≤ PITH_STACK_MAX →
        builtin_map_keys rt2
          = ({ rt2 with stack := .arr (d.slots.map (fun s => .str s.name)) :: rest }, true))
    ∧ (pith_dict_lookup c10_parent_dict (cstr "k")).isSome = true
    ∧ (c10_parent_dict.slots.map PithSlot.name).contains (cstr "k") = false := by
  have hs : pith_stack_has rt 2 = true := by
    rw [pith_stack_has, hstack]
    simp
  have hpush : ¬ PITH_STACK_MAX ≤ rest.length := by
    rw [hstack] at hlen
    simp only [List.length_cons] at hlen
    rw [PITH_STACK_MAX] at hlen ⊢
    omega
  refine ⟨?_, ?_, ?_, rfl, rfl⟩
  · intro habs
    rw [builtin_map_get, if_pos hs]
    simp only [pith_pop, hstack]
    rcases habs with habs | ⟨s, hs1, hs2⟩
    · rw [habs, pith_push]
      rw [if_neg (by simpa using hpush)]
    · rw [hs1]
      obtain ⟨nm, bs, be, c⟩ := s
      rw [show (PithSlot.mk nm bs be c).cached = c from rfl] at hs2
      subst hs2
      rw [pith_push]
      rw [if_neg (by simpa using hpush)]
      rfl
  · rw [builtin_map_has, if_pos hs]
    simp only [pith_pop, hstack]
    rw [pith_push]
    rw [if_neg (by simpa using hpush)]
  · intro rt2 hst2 hlen2
    have hs2 : pith_stack_has rt2 1 = true := by
      rw [pith_stack_has, hst2]
      simp
    have hpush2 : ¬ PITH_STACK_MAX ≤ rest.length := hpush
    rw [builtin_map_keys, if_pos hs2]
    simp only [pith_pop, hst2]
    rw [pith_push]
    rw [if_neg (by simpa using hpush2)]

/-- C10, witness: the theorem applied to a concrete runtime whose
dictionary has an uncached slot `"k"` (get pushes nil, has pushes
true, keys lists `"k"`). -/
theorem C10_map_get_has_keys_witness :
    builtin_map_get
      { stack := [.str (cstr "k"), .dict (.mk none none [.mk (cstr "k") 5 9 none])],
        tokens := [], root := .mk none none [], current_dict := none,
        signals := [], has_error := false, error := [] }
      = ({ stack := [.nil], tokens := [], root := .mk none none [], current_dict := none,
           signals := [], has_error := false, error := [] }, true) := by
  have h := (C10_map_get_has_keys
    { stack := [.str (cstr "k"), .dict (.mk none none [.mk (cstr "k") 5 9 none])],
      tokens := [], root := .mk none none [], current_dict := none,
      signals := [], has_error := false, error := [] }
    (.mk none none [.mk (cstr "k") 5 9 none]) (cstr "k") [] rfl (by decide)).1
    (Or.inr ⟨.mk (cstr "k") 5 9 none, rfl, rfl⟩)
  exact h

/-- C6, counterexample: a root-level slot whose body is the single
literal token `7` stays uncached after the third pass (the outer loop
only enters root slots holding a cached dictionary), even though the
very same slot, handed to the per-slot caching routine, would be
cached — the claim's "for all slots, including root-level slots" does
not hold. -/
theorem C6_root_literal_slot_not_cached :
    pith_load_third_pass [.num 7] (.mk none none [.mk (cstr "x") 0 1 none]) []
      = (.mk none none [.mk (cstr "x") 0 1 none], [])
    ∧ pith_third_pass_slot [.num 7] (.mk (cstr "x") 0 1 none) []
      = (.mk (cstr "x") 0 1 (some (.num 7)), []) :=
  ⟨rfl, rfl⟩

/-- C6, amended: inside a root slot that holds a cached dictionary the
third pass caches every still-uncached slot whose body is one literal
token, and turns every `<literal> signal` body into a cached signal
appended to the runtime's registry (wrapping the literal, not yet
dirty); already-cached slots and non-literal bodies are untouched, and
root-level slots of the root dictionary itself are skipped unless
their cached value is a dictionary. -/
theorem C6_third_pass_literal_caching (tokens : List PithTok) :
    (∀ t v nm bs sigs, pith_literal_token_value t = some v →
      tokens.getD bs .eof = t →
      (¬ (bs + 1) - bs = 2) →
      pith_third_pass_slot tokens (.mk nm bs (bs + 1) none) sigs
        = (.mk nm bs (bs + 1) (some v), sigs))
    ∧ (∀ t v nm bs sigs, pith_literal_token_value t = some v →
      tokens.getD bs .eof = t →
      tokens.getD (bs + 1) .eof = .word (cstr "signal") →
      ((bs + 2) - bs = 2) →
      pith_third_pass_slot tokens (.mk nm bs (bs + 2) none) sigs
        = (.mk nm bs (bs + 2) (some (.signal sigs.length)), sigs ++ [⟨v, false⟩]))
    ∧ (∀ nm bs be c sigs,
      pith_third_pass_slot tokens (.mk nm bs be (some c)) sigs
        = (.mk nm bs be (some c), sigs))
    ∧ (∀ rn rp nm bs be dn dp ds rest sigs,
      pith_third_pass_root tokens (.mk nm bs be (some (.dict (.mk dn dp ds))) :: rest) sigs
        = (.mk nm bs be (some (.dict (.mk dn dp (pith_third_pass_slots tokens ds sigs).1)))
            :: (pith_third_pass_root tokens rest (pith_third_pass_slots tokens ds sigs).2).1,
           (pith_third_pass_root tokens rest (pith_third_pass_slots tokens ds sigs).2).2)
      ∧ pith_load_third_pass tokens (.mk rn rp [.mk nm bs be none]) sigs
        = (.mk rn rp [.mk nm bs be none], sigs)) := by
  refine ⟨?_, ?_, fun nm bs be c sigs => rfl, fun rn rp nm bs be dn dp ds rest sigs => ⟨rfl, rfl⟩⟩
  · intro t v nm bs sigs hlit htok hne2
    rw [pith_third_pass_slot]
    rw [if_neg hne2, if_pos (by omega), htok, hlit]
  · intro t v nm bs sigs hlit htok hsig h2
    rw [pith_third_pass_slot]
    rw [if_pos h2, htok, hsig, hlit]
    simp

/-- C6, witness: the amended caching laws evaluated at a concrete token
stream (`"hi"` at 0, `0 signal` at 1–2). -/
theorem C6_third_pass_literal_caching_witness :
    pith_third_pass_slot [.str (cstr "hi"), .num 0, .word (cstr "signal")]
        (.mk (cstr "a") 0 1 none) []
      = (.mk (cstr "a") 0 1 (some (.str (cstr "hi"))), [])
    ∧ pith_third_pass_slot [.str (cstr "hi"), .num 0, .word (cstr "signal")]
        (.mk (cstr "b") 1 3 none) []
      = (.mk (cstr "b") 1 3 (some (.signal 0)), [⟨.num 0, false⟩]) :=
  ⟨(C6_third_pass_literal_caching _).1 (.str (cstr "hi")) (.str (cstr "hi"))
      (cstr "a") 0 [] rfl rfl (by decide),
    (C6_third_pass_literal_caching _).2.1 (.num 0) (.num 0)
      (cstr "b") 1 [] rfl rfl rfl (by decide)⟩

/-- C7: executing `5 app.count!` pushes 5, pops it into signal 0
(leaving the stack empty) and marks the signal dirty, so the any-dirty
query answers true; reading `app.count` afterwards pushes the signal's
auto-unwrapped value 5; `clear_dirty` resets the flag; and the same
write against a `count` slot that is not a cached Signal fails with
the error slot set. -/
theorem C7_signal_write_read_scenario :
    (pith_execute_body 10 c7_rt 0 4).2 = true
    ∧ (pith_execute_body 10 c7_rt 0 4).1.stack = []
    ∧ (pith_execute_body 10 c7_rt 0 4).1.signals = [⟨.num 5, true⟩]
    ∧ pith_runtime_has_dirty_signals (pith_execute_body 10 c7_rt 0 4).1 = true
    ∧ (pith_execute_body 10 (pith_execute_body 10 c7_rt 0 4).1 4 7).2 = true
    ∧ (pith_execute_body 10 (pith_execute_body 10 c7_rt 0 4).1 4 7).1.stack = [.num 5]
    ∧ pith_runtime_has_dirty_signals
        (pith_runtime_clear_dirty (pith_execute_body 10 c7_rt 0 4).1) = false
    ∧ (pith_execute_body 10 c7_bad_rt 0 4).2 = false
    ∧ (pith_execute_body 10 c7_bad_rt 0 4).1.has_error = true :=
  ⟨rfl, rfl, rfl, rfl, rfl, rfl, rfl, rfl, rfl⟩

theorem pith_if_scan_skip (tokens : List PithTok) (body_end : Nat) :
    ∀ (count fuel j depth else_pos dflt : Nat),
    count ≤ fuel →
    (∀ k, j ≤ k → k < j + count → pith_tok_plain (tokens.getD k .eof) = true) →
    j + count ≤ body_end →
    pith_if_scan tokens body_end fuel j depth else_pos dflt
      = pith_if_scan tokens body_end (fuel - count) (j + count) depth else_pos dflt
  | 0, fuel, j, depth, else_pos, dflt, _, _, _ => by
      rw [Nat.sub_zero, Nat.add_zero]
  | count + 1, fuel, j, depth, else_pos, dflt, hcf, hplain, hcb => by
      match fuel, hcf with
      | fuel + 1, hcf =>
        have hpl := hplain j (Nat.le_refl _) (by omega)
        rw [pith_if_scan, if_pos (show j < body_end from by omega)]
        cases ht : tokens.getD j .eof <;>
          first
          | exact absurd hpl (by rw [ht]; decide)
          | (rw [show fuel + 1 - (count + 1) = fuel - count from by omega,
               show j + (count + 1) = j + 1 + count from by omega]
             exact pith_if_scan_skip tokens body_end count fuel (j + 1) depth else_pos dflt
               (by omega) (fun k hk1 hk2 => hplain k (by omega) (by omega)) (by omega))

/-- The `if` scan on a flat `if … else … end` construct: `else` at `p`,
`end` at `e`. -/
theorem pith_if_scan_flat_else (tokens : List PithTok) (body_end i p e : Nat)
    (hip : i < p) (hpe : p < e) (heb : e < body_end)
    (htb : ∀ k, i + 1 ≤ k → k < p → pith_tok_plain (tokens.getD k .eof) = true)
    (heb2 : ∀ k, p + 1 ≤ k → k < e → pith_tok_plain (tokens.getD k .eof) = true)
    (hp : tokens.getD p .eof = .else_) (he : tokens.getD e .eof = .end_) :
    pith_if_scan tokens body_end (body_end - (i + 1)) (i + 1) 1 0 (i + 1) = (p, e) := by
  rw [pith_if_scan_skip tokens body_end (p - (i + 1)) (body_end - (i + 1)) (i + 1) 1 0 (i + 1)
      (by omega) (fun k hk1 hk2 => htb k hk1 (by omega)) (by omega)]
  rw [show (i + 1) + (p - (i + 1)) = p from by omega,
    show body_end - (i + 1) - (p - (i + 1)) = (body_end - p - 1) + 1 from by omega]
  rw [pith_if_scan, if_pos (show p < body_end from by omega), hp]
  show pith_if_scan tokens body_end (body_end - p - 1) (p + 1) 1 p (i + 1) = (p, e)
  rw [pith_if_scan_skip tokens body_end (e - (p + 1)) (body_end - p - 1) (p + 1) 1 p (i + 1)
      (by omega) (fun k hk1 hk2 => heb2 k hk1 (by omega)) (by omega)]
  rw [show (p + 1) + (e - (p + 1)) = e from by omega,
    show body_end - p - 1 - (e - (p + 1)) = (body_end - e - 1) + 1 from by omega]
  rw [pith_if_scan, if_pos (show e < body_end from by omega), he]
  rfl

/-- The `if` scan on a flat `if … end` construct without `else`:
the else position stays 0. -/
theorem pith_if_scan_flat_noelse (tokens : List PithTok) (body_end i e : Nat)
    (hie : i < e) (heb : e < body_end)
    (htb : ∀ k, i + 1 ≤ k → k < e → pith_tok_plain (tokens.getD k .eof) = true)
    (he : tokens.getD e .eof = .end_) :
    pith_if_scan tokens body_end (body_end - (i + 1)) (i + 1) 1 0 (i + 1) = (0, e) := by
  rw [pith_if_scan_skip tokens body_end (e - (i + 1)) (body_end - (i + 1)) (i + 1) 1 0 (i + 1)
      (by omega) (fun k hk1 hk2 => htb k hk1 (by omega)) (by omega)]
  rw [show (i + 1) + (e - (i + 1)) = e from by omega,
    show body_end - (i + 1) - (e - (i + 1)) = (body_end - e - 1) + 1 from by omega]
  rw [pith_if_scan, if_pos (show e < body_end from by omega), he]
  rfl

/-- C3: the `if` token pops its condition and treats exactly `false`,
`nil` and the number 0 as falsy — every other value, the empty string
and the empty array included, selects the then branch.  On a flat
`if … else … end` construct (`else` at `p`, `end` at `e`) the loop runs
the selected branch and, when it succeeds, continues right after the
`end` token at `e + 1`; on a flat `if … end` construct a falsy
condition skips straight to `e + 1`.  -/
theorem C3_if_truthiness_and_advance :
    (∀ v : PithValue, pith_take_branch v = false
      ↔ (v = .bool false ∨ v = .nil ∨ v = .num 0))
    ∧ pith_take_branch (.str []) = true
    ∧ pith_take_branch (.arr []) = true
    ∧ (∀ (rt : PithRuntime) (fuel i body_end p e : Nat)
        (v : PithValue) (rest : List PithValue),
      rt.stack = v :: rest →
      i < body_end →
      rt.tokens.getD i .eof = .if_ →
      i < p → p < e → e < body_end →
      (∀ k, i + 1 ≤ k → k < p → pith_tok_plain (rt.tokens.getD k .eof) = true) →
      (∀ k, p + 1 ≤ k → k < e → pith_tok_plain (rt.tokens.getD k .eof) = true) →
      rt.tokens.getD p .eof = .else_ →
      rt.tokens.getD e .eof = .end_ →
      pith_execute_body (fuel + 1) rt i body_end
        = (if pith_take_branch v then
            match pith_execute_body fuel { rt with stack := rest } (i + 1) p with
            | (rt2, true) =>
                if rt2.has_error = true then (rt2, false)
                else pith_execute_body fuel rt2 (e + 1) body_end
            | (rt2, false) => (rt2, false)
          else
            match pith_execute_body fuel { rt with stack := rest } (p + 1) e with
            | (rt2, true) =>
                if rt2.has_error = true then (rt2, false)
                else pith_execute_body fuel rt2 (e + 1) body_end
            | (rt2, false) => (rt2, false)))
    ∧ (∀ (rt : PithRuntime) (fuel i body_end e : Nat)
        (v : PithValue) (rest : List PithValue),
      rt.stack = v :: rest →
      i < body_end →
      rt.tokens.getD i .eof = .if_ →
      i < e → e < body_end →
      (∀ k, i + 1 ≤ k → k < e → pith_tok_plain (rt.tokens.getD k .eof) = true) →
      rt.tokens.getD e .eof = .end_ →
      pith_execute_body (fuel + 1) rt i body_end
        = (if pith_take_branch v then
            match pith_execute_body fuel { rt with stack := rest } (i + 1) e with
            | (rt2, true) =>
                if rt2.has_error = true then (rt2, false)
                else pith_execute_body fuel rt2 (e + 1) body_end
            | (rt2, false) => (rt2, false)
          else
            if rt.has_error = true then ({ rt with stack := rest }, false)
            else pith_execute_body fuel { rt with stack := rest } (e + 1) body_end)) := by
  refine ⟨?_, rfl, rfl, ?_, ?_⟩
  · intro v
    cases v <;> simp [pith_take_branch]
  · intro rt fuel i body_end p e v rest hstack hib hi hip hpe heb htb heb2 hp he
    have hsh : pith_stack_has rt 1 = true := by
      rw [pith_stack_has, hstack]
      simp
    have hscan := pith_if_scan_flat_else rt.tokens body_end i p e hip hpe heb htb heb2 hp he
    have h0p : (if 0 < p then p else e) = p := if_pos (by omega)
    rw [pith_execute_body, if_pos hib]
    simp only [hi, hsh, if_true, pith_pop, hstack, hscan, h0p]
    rw [if_pos (show 0 < p from by omega)]
  · intro rt fuel i body_end e v rest hstack hib hi hie heb htb he
    have hsh : pith_stack_has rt 1 = true := by
      rw [pith_stack_has, hstack]
      simp
    have hscan := pith_if_scan_flat_noelse rt.tokens body_end i e hie heb htb he
    have hlt : ¬ (0 : Nat) < 0 := by omega
    rw [pith_execute_body, if_pos hib]
    simp only [hi, hsh, if_true, pith_pop, hstack, hscan, if_neg hlt]

/-- C3, witness: the advance law applied to the concrete construct
`if 1 else 2 end` with the empty array as condition. -/
theorem C3_if_truthiness_and_advance_witness :
    pith_execute_body 10 c3_rt 0 5
      = (if pith_take_branch (.arr []) then
          match pith_execute_body 9 { c3_rt with stack := [] } 1 2 with
          | (rt2, true) =>
              if rt2.has_error = true then (rt2, false)
              else pith_execute_body 9 rt2 5 5
          | (rt2, false) => (rt2, false)
        else
          match pith_execute_body 9 { c3_rt with stack := [] } 3 4 with
          | (rt2, true) =>
              if rt2.has_error = true then (rt2, false)
              else pith_execute_body 9 rt2 5 5
          | (rt2, false) => (rt2, false)) :=
  C3_if_truthiness_and_advance.2.2.2.1 c3_rt 9 0 5 2 4 (.arr []) [] rfl
    (by decide) rfl (by decide) (by decide) (by decide)
    (fun k hk1 hk2 => by
      have hk : k = 1 := by omega
      subst hk
      decide)
    (fun k hk1 hk2 => by
      have hk : k = 3 := by omega
      subst hk
      decide)
    rfl rfl
